import Mathlib

/-!
Verification of the YES TV backend core (`src/server/src/server.js`) against
its natural-language specification.

The development shallow-embeds the two specified components — the catalog
merge engine and the OTP session store — together with the client directory
and playback-log handlers.  JavaScript objects are modelled by the inductive
type `JVal`; JS `Map`/`Set` values keyed by strings are modelled as
association lists in insertion order; `Date.now()`, `Math.random()` and
`crypto.randomUUID()` are passed in as explicit parameters.
-/

namespace YesTv

/-- A JavaScript value, restricted to the shapes the server manipulates:
`null`, booleans, (integer) numbers, strings and plain objects.  Objects are
field lists in insertion order with unique names. -/
inductive JVal where
  | null : JVal
  | bool (b : Bool) : JVal
  | num (n : Int) : JVal
  | str (s : String) : JVal
  | obj (fields : List (String × JVal)) : JVal

/-- JS `String.prototype.trim()` (on the whitespace the server's data uses):
drop leading and trailing whitespace characters.  Defined on the character
list so that concrete instances evaluate inside the kernel. -/
def jsTrim (s : String) : String :=
  ⟨List.reverse (List.dropWhile Char.isWhitespace
    (List.reverse (List.dropWhile Char.isWhitespace s.data)))⟩

/-- JS `String.prototype.toLowerCase()` (ASCII range). -/
def jsToLower (s : String) : String :=
  ⟨s.data.map Char.toLower⟩

/-- `Map.get` / plain JS property lookup on an association list. -/
def assocLookup {α : Type} (m : List (String × α)) (k : String) : Option α :=
  match m.find? (fun p => p.1 == k) with
  | some p => some p.2
  | none => none

/-- `Map.set`: replace the value at an existing key in place, otherwise
append the binding at the end (JS `Map` keeps first-insertion order). -/
def assocSet {α : Type} (m : List (String × α)) (k : String) (v : α) :
    List (String × α) :=
  if (m.find? (fun p => p.1 == k)).isSome then
    m.map (fun p => if p.1 == k then (k, v) else p)
  else m ++ [(k, v)]

/-- `Map.delete`. -/
def assocDelete {α : Type} (m : List (String × α)) (k : String) :
    List (String × α) :=
  m.filter (fun p => p.1 != k)

/-- `Set.add` on an insertion-ordered set. -/
def setAdd (s : List String) (k : String) : List String :=
  if k ∈ s then s else s ++ [k]

/-- `typeof v === "object" && v !== null` — in the server's guards
`!rawItem || typeof rawItem !== "object"` this is exactly the values that
are *not* skipped. -/
def isObjB : JVal → Bool
  | .obj _ => true
  | _ => false

/-- JS string conversion as used by template literals (`` `id:${item.id}` ``). -/
def jvalToString : JVal → String
  | .null => "null"
  | .bool b => cond b "true" "false"
  | .num n => toString n
  | .str s => s
  | .obj _ => "[object Object]"

/-- Property access `item.f` (returns `none` for a missing field or a
non-object). -/
def getField (item : JVal) (name : String) : Option JVal :=
  match item with
  | .obj fields => assocLookup fields name
  | _ => none

/-- The `title` branch of `catalogKey`:
`typeof item.title === "string" && item.title.trim()` guards the key
`` `title:${item.title.trim().toLowerCase()}` ``. -/
def titleKeyOf (item : JVal) : Option String :=
  match getField item "title" with
  | some (.str t) => if jsTrim t = "" then none else some ("title:" ++ jsToLower (jsTrim t))
  | _ => none

/-- The `id` branch of `catalogKey`: the guard
`item.id !== undefined && item.id !== null && item.id !== ""` admits the
key `` `id:${item.id}` ``. -/
def idKeyFor : Option JVal → Option String
  | none => none
  | some JVal.null => none
  | some (JVal.str s) => if s = "" then none else some ("id:" ++ jvalToString (JVal.str s))
  | some idv => some ("id:" ++ jvalToString idv)

/-- `catalogKey` from `server.js`: `id:<id>` when `id` is present and
neither `null` nor `""`; otherwise the title key; otherwise `null`. -/
def catalogKey (item : JVal) : Option String :=
  match item with
  | .obj _ =>
    (match idKeyFor (getField item "id") with
     | some k => some k
     | none => titleKeyOf item)
  | _ => none

/-- The shallow copy `{ ...rawItem }` taken by `registerExisting`/`upsert`. -/
def shallowCopy : JVal → JVal
  | .obj fields => .obj fields
  | v => v

/-- The synthetic key `` `auto:${n}` ``. -/
def mkAuto (n : Nat) : String :=
  "auto:" ++ Nat.repr n

/-- `catalogKey(item) ?? `auto:${autoIndex++}``: the item's key together
with the auto counter after the assignment. -/
def keyOf (autoIndex : Nat) (item : JVal) : String × Nat :=
  match catalogKey item with
  | some k => (k, autoIndex)
  | none => (mkAuto autoIndex, autoIndex + 1)

/-- The mutable locals of `mergeCatalogItems`. -/
structure MergeState where
  merged : List JVal
  positionByKey : List (String × Nat)
  existingKeys : List String
  incomingKeys : List String
  autoIndex : Nat

def initialMergeState : MergeState :=
  { merged := [], positionByKey := [], existingKeys := [], incomingKeys := [],
    autoIndex := 0 }

/-- `registerExisting` from `mergeCatalogItems` (`replace` is the option
 captured from the closure). -/
def registerExisting (replace : Bool) (st : MergeState) (rawItem : JVal) :
    MergeState :=
  if isObjB rawItem = false then st
  else
    let item := shallowCopy rawItem
    let kp := keyOf st.autoIndex item
    let st1 : MergeState :=
      { st with autoIndex := kp.2, existingKeys := setAdd st.existingKeys kp.1 }
    if replace then st1
    else
      match assocLookup st1.positionByKey kp.1 with
      | some index => { st1 with merged := st1.merged.set index item }
      | none =>
        { st1 with
          positionByKey := assocSet st1.positionByKey kp.1 st1.merged.length,
          merged := st1.merged ++ [item] }

/-- `upsert` from `mergeCatalogItems`. -/
def upsert (st : MergeState) (rawItem : JVal) : MergeState :=
  if isObjB rawItem = false then st
  else
    let item := shallowCopy rawItem
    let kp := keyOf st.autoIndex item
    let st1 : MergeState :=
      { st with autoIndex := kp.2, incomingKeys := setAdd st.incomingKeys kp.1 }
    match assocLookup st1.positionByKey kp.1 with
    | some index => { st1 with merged := st1.merged.set index item }
    | none =>
      { st1 with
        positionByKey := assocSet st1.positionByKey kp.1 st1.merged.length,
        merged := st1.merged ++ [item] }

structure MergeStats where
  added : Nat
  updated : Nat
deriving DecidableEq, Repr

/-- The `incomingKeys.forEach` statistics pass. -/
def computeStats (incomingKeys existingKeys : List String) : MergeStats :=
  incomingKeys.foldl
    (fun s k =>
      if k ∈ existingKeys then { s with updated := s.updated + 1 }
      else { s with added := s.added + 1 })
    { added := 0, updated := 0 }

structure MergeResult where
  items : List JVal
  stats : MergeStats

/-- `mergeCatalogItems(existing, incoming, { replace })`. -/
def mergeCatalogItems (existing incoming : List JVal) (replace : Bool) :
    MergeResult :=
  let st1 := existing.foldl (registerExisting replace) initialMergeState
  let st2 := incoming.foldl upsert st1
  { items := st2.merged, stats := computeStats st2.incomingKeys st2.existingKeys }

/-! ### OTP session store -/

/-- `OTP_TTL_MS = 5 * 60 * 1000`. -/
def otpTtlMs : Nat := 5 * 60 * 1000

/-- `MAX_LOG_ENTRIES = 200`. -/
def maxLogEntries : Nat := 200

structure OtpEntry where
  code : String
  expiresAt : Nat
deriving DecidableEq, Repr

/-- The module-level `otpCache` map, phone → entry. -/
abbrev OtpCache := List (String × OtpEntry)

/-- `generateOtp()` = `Math.floor(100000 + Math.random() * 900000).toString()`.
`rand` stands for `Math.floor(Math.random() * 900000)`, a natural number
that the runtime guarantees to lie in `[0, 900000)`. -/
def generateOtp (rand : Nat) : String :=
  Nat.repr (100000 + rand)

/-- `storeOtp(phone, code)` at current time `t`. -/
def storeOtp (cache : OtpCache) (phone code : String) (t : Nat) : OtpCache :=
  assocSet cache phone { code := code, expiresAt := t + otpTtlMs }

/-- `validateOtp(phone, code)` at current time `t`; returns the boolean
result together with the cache after the call. -/
def validateOtp (cache : OtpCache) (phone code : String) (t : Nat) :
    Bool × OtpCache :=
  match assocLookup cache phone with
  | none => (false, cache)
  | some entry =>
    if entry.expiresAt < t then (false, assocDelete cache phone)
    else
      let ok := entry.code == code
      (ok, if ok then assocDelete cache phone else cache)

/-! ### Clients -/

structure Client where
  id : String
  name : String
  phone : String
  status : Option String
  createdAt : String
  validatedAt : Option String
deriving DecidableEq, Repr

/-- `ensureClientByPhone(phone)`: `freshId` stands for
`crypto.randomUUID()` and `createdAtIso` for `new Date().toISOString()`.
Returns the found-or-created client and the stored client list. -/
def ensureClientByPhone (clients : List Client) (phone freshId createdAtIso : String) :
    Option Client × List Client :=
  let normalized := jsTrim phone
  if normalized = "" then (none, clients)
  else
    match clients.find? (fun c => c.phone == normalized) with
    | some client => (some client, clients)
    | none =>
      let client : Client :=
        { id := freshId, name := "Cliente " ++ normalized, phone := normalized,
          status := some "pending", createdAt := createdAtIso, validatedAt := none }
      (some client, clients ++ [client])

/-- The `POST /auth/request-otp` handler body (after body parsing):
trims the phone, rejects a blank one (`none`), otherwise generates a code,
ensures the client record and stores the OTP entry.  Returns the generated
code together with the new OTP cache and client list. -/
def requestOtpHandler (rawPhone : Option String) (rand : Nat)
    (freshId createdAtIso : String) (t : Nat) (cache : OtpCache)
    (clients : List Client) : Option String × OtpCache × List Client :=
  match rawPhone with
  | none => (none, cache, clients)
  | some raw =>
    let phone := jsTrim raw
    if phone = "" then (none, cache, clients)
    else
      let code := generateOtp rand
      let clients2 := (ensureClientByPhone clients phone freshId createdAtIso).2
      (some code, storeOtp cache phone code t, clients2)

/-- Outcome of `PATCH /admin/clients/:id`. -/
inductive PatchResult where
  | badRequest : PatchResult
  | notFound : PatchResult
  | ok (updated : Client) (clients : List Client) : PatchResult
deriving DecidableEq, Repr

/-- `clients.findIndex(...)` followed by the in-place update
`clients[index] = { ...clients[index], status, validatedAt: ... }`:
rewrite the first client whose `id` matches, leaving the rest alone. -/
def patchFirst (idArg status nowIso : String) : List Client → Option (Client × List Client)
  | [] => none
  | c :: rest =>
    if c.id = idArg then
      let c2 : Client :=
        { c with
          status := some status,
          validatedAt :=
            if jsToLower status = "active" then some nowIso else c.validatedAt }
      some (c2, c2 :: rest)
    else
      match patchFirst idArg status nowIso rest with
      | none => none
      | some (u, rest2) => some (u, c :: rest2)

/-- The `PATCH /admin/clients/:id` handler body.  A missing/empty `status`
is the 400 response; an unknown id the 404 response. -/
def patchClientStatus (clients : List Client) (idArg status nowIso : String) :
    PatchResult :=
  if status = "" then .badRequest
  else
    match patchFirst idArg status nowIso clients with
    | none => .notFound
    | some (u, clients2) => .ok u clients2

/-! ### Playback logs -/

structure LogEntry where
  id : String
  event : String
  source : String
  contentId : Option String
  reason : Option String
  timestamp : String
deriving DecidableEq, Repr

/-- The `POST /logs/playback` storage step: `logs.unshift(entry)` followed
by `if (logs.length > MAX_LOG_ENTRIES) logs.length = MAX_LOG_ENTRIES`. -/
def appendPlaybackLog (logs : List LogEntry) (entry : LogEntry) : List LogEntry :=
  let logs2 := entry :: logs
  if maxLogEntries < logs2.length then logs2.take maxLogEntries else logs2

/-! ### GET /users -/

structure ClientSummary where
  id : String
  name : String
  phone : String
  status : String
deriving DecidableEq, Repr

/-- The response shape of `GET /users`: only `id`, `name`, `phone` and
`status` (defaulted to `"pending"`). -/
def summaryOf (c : Client) : ClientSummary :=
  { id := c.id, name := c.name, phone := c.phone, status := c.status.getD "pending" }

/-- The `GET /users` handler body.  `phoneQ`/`otpQ` are the raw query
parameters (`none` when absent); `freshId`/`createdAtIso` feed
`ensureClientByPhone` when it has to create the record. -/
def getUsersHandler (phoneQ otpQ : Option String) (t : Nat)
    (freshId createdAtIso : String) (cache : OtpCache) (clients : List Client) :
    List ClientSummary × OtpCache × List Client :=
  match phoneQ.map jsTrim, otpQ.map jsTrim with
  | some phone, some otp =>
    if phone = "" ∨ otp = "" then ([], cache, clients)
    else
      let vr := validateOtp cache phone otp t
      if vr.1 = false then ([], vr.2, clients)
      else
        match clients.find? (fun c => c.phone == phone) with
        | some client => ([summaryOf client], vr.2, clients)
        | none =>
          match ensureClientByPhone clients phone freshId createdAtIso with
          | (some client, clients2) => ([summaryOf client], vr.2, clients2)
          | (none, clients2) => ([], vr.2, clients2)
  | _, _ => ([], cache, clients)

/-! ### POST /admin/catalog -/

structure CatalogPostResponse where
  ok : Bool
  total : Nat
  received : Nat
  added : Nat
  updated : Nat
  mode : String
deriving DecidableEq, Repr

/-- The `POST /admin/catalog` handler body: `items` is `payload.items` when
it is an array (`none` otherwise — the 400 response), `modeField` is
`payload.mode`.  Returns the JSON response and the saved catalog. -/
def postAdminCatalog (items : Option (List JVal)) (modeField : Option JVal)
    (current : List JVal) : Option (CatalogPostResponse × List JVal) :=
  match items with
  | none => none
  | some list =>
    let mode :=
      match modeField with
      | some (JVal.str s) => jsToLower s
      | _ => "replace"
    let replace := mode != "merge"
    let result := mergeCatalogItems current list replace
    some
      ({ ok := true, total := result.items.length, received := list.length,
         added := result.stats.added, updated := result.stats.updated,
         mode := if replace then "replace" else "merge" },
       result.items)



/-! ## Abstraction machinery for the merge engine

`keyedScan` is the reference key-assignment pass described in the spec
(§3 and §4.1, step 1/4): skip non-objects, derive each object's key with
the shared, strictly increasing auto counter.  `collapseSlots` is the
spec's result construction (§4.1 step 4): one slot per distinct key, in
first-occurrence order, overwritten in place on collision. -/

/-- Reference key assignment: pairs each surviving item with its derived
key, threading the single auto counter across the scan. -/
def keyedScan (auto : Nat) : List JVal → List (String × JVal) × Nat
  | [] => ([], auto)
  | item :: rest =>
    if isObjB item = false then keyedScan auto rest
    else
      let kp := keyOf auto item
      let r := keyedScan kp.2 rest
      ((kp.1, item) :: r.1, r.2)

/-- Reference result construction: key-indexed slots, in-place overwrite on
an existing key, append on a fresh key. -/
def collapseSlots (slots : List (String × JVal)) (ps : List (String × JVal)) :
    List (String × JVal) :=
  ps.foldl (fun acc p => assocSet acc p.1 p.2) slots

/-- Insertion-order accumulation of a key set. -/
def setAddKeys (s : List String) (ps : List (String × JVal)) : List String :=
  ps.foldl (fun acc p => setAdd acc p.1) s

/-- `positionByKey` reconstructed from the slot keys: key `keys[j]` maps to
position `i + j`. -/
def positionsFrom (i : Nat) : List String → List (String × Nat)
  | [] => []
  | k :: ks => (k, i) :: positionsFrom (i + 1) ks

/-- The state of `mergeCatalogItems` as an abstract slot list. -/
def SlotsInv (st : MergeState) (slots : List (String × JVal)) : Prop :=
  st.merged = slots.map Prod.snd ∧
  st.positionByKey = positionsFrom 0 (slots.map Prod.fst) ∧
  (slots.map Prod.fst).Nodup

theorem shallowCopy_eq (v : JVal) : shallowCopy v = v := by
  cases v <;> rfl

theorem assocLookup_nil {α : Type} (k : String) :
    assocLookup ([] : List (String × α)) k = none := rfl

theorem assocLookup_cons {α : Type} (p : String × α) (m : List (String × α))
    (k : String) :
    assocLookup (p :: m) k = if p.1 = k then some p.2 else assocLookup m k := by
  simp only [assocLookup, List.find?]
  by_cases h : p.1 = k
  · simp [h]
  · simp [h, beq_eq_false_iff_ne.mpr h]

theorem find?_isSome_iff_mem_fst {α : Type} (m : List (String × α)) (k : String) :
    (m.find? (fun p => p.1 == k)).isSome = true ↔ k ∈ m.map Prod.fst := by
  induction m with
  | nil => simp
  | cons p rest ih =>
    by_cases h : p.1 = k
    · simp [List.find?, h]
    · simp only [List.find?, beq_eq_false_iff_ne.mpr h, List.map_cons, List.mem_cons]
      rw [ih]
      constructor
      · exact Or.inr
      · rintro (h' | h')
        · exact absurd h'.symm h
        · exact h'

theorem assocSet_of_not_mem {α : Type} {m : List (String × α)} {k : String}
    (h : k ∉ m.map Prod.fst) (v : α) : assocSet m k v = m ++ [(k, v)] := by
  have : (m.find? (fun p => p.1 == k)).isSome = false := by
    rw [← Bool.not_eq_true, find?_isSome_iff_mem_fst]
    exact h
  simp [assocSet, this]

theorem map_replace_of_not_mem {α : Type} {m : List (String × α)} {k : String}
    (h : k ∉ m.map Prod.fst) (v : α) :
    m.map (fun p => if p.1 == k then (k, v) else p) = m := by
  induction m with
  | nil => rfl
  | cons p rest ih =>
    simp only [List.map_cons, List.mem_cons, not_or] at h
    simp only [List.map_cons]
    rw [if_neg, ih h.2]
    simp only [beq_iff_eq]
    exact fun e => h.1 e.symm

theorem map_fst_assocSet_of_mem {α : Type} {m : List (String × α)} {k : String}
    (h : k ∈ m.map Prod.fst) (v : α) :
    (assocSet m k v).map Prod.fst = m.map Prod.fst := by
  have hs : (m.find? (fun p => p.1 == k)).isSome = true :=
    (find?_isSome_iff_mem_fst m k).mpr h
  simp only [assocSet, hs, if_true, List.map_map]
  apply List.map_congr_left
  intro p _
  by_cases hp : p.1 = k
  · simp [hp]
  · simp [beq_eq_false_iff_ne.mpr hp, hp]

theorem nodup_map_fst_assocSet {α : Type} {m : List (String × α)} {k : String}
    (h : (m.map Prod.fst).Nodup) (v : α) :
    ((assocSet m k v).map Prod.fst).Nodup := by
  by_cases hk : k ∈ m.map Prod.fst
  · rw [map_fst_assocSet_of_mem hk]
    exact h
  · rw [assocSet_of_not_mem hk]
    simp only [List.map_append, List.map_cons, List.map_nil]
    exact List.Nodup.append h (List.nodup_singleton k) (by
      intro x hx hx'
      simp only [List.mem_singleton] at hx'
      exact hk (hx' ▸ hx))


theorem mem_setAdd {s : List String} {k x : String} :
    x ∈ setAdd s k ↔ x ∈ s ∨ x = k := by
  unfold setAdd
  by_cases h : k ∈ s
  · simp only [h, if_true]
    exact ⟨Or.inl, fun hx => hx.elim id (fun e => e ▸ h)⟩
  · simp [h]

theorem nodup_setAdd {s : List String} (h : s.Nodup) (k : String) :
    (setAdd s k).Nodup := by
  unfold setAdd
  by_cases hk : k ∈ s
  · simpa [hk]
  · simp only [hk, if_false]
    exact List.Nodup.append h (List.nodup_singleton k) (by
      intro x hx hx'
      simp only [List.mem_singleton] at hx'
      exact hk (hx' ▸ hx))

theorem map_fst_positionsFrom (i : Nat) (keys : List String) :
    (positionsFrom i keys).map Prod.fst = keys := by
  induction keys generalizing i with
  | nil => rfl
  | cons k ks ih => simp [positionsFrom, ih]

theorem positionsFrom_cons (i : Nat) (k : String) (ks : List String) :
    positionsFrom i (k :: ks) = (k, i) :: positionsFrom (i + 1) ks := rfl

theorem positionsFrom_append_singleton (keys : List String) :
    ∀ (i : Nat) (k : String),
      positionsFrom i (keys ++ [k]) = positionsFrom i keys ++ [(k, i + keys.length)] := by
  induction keys with
  | nil => intro i k; simp [positionsFrom]
  | cons k0 ks ih =>
    intro i k
    rw [List.cons_append, positionsFrom_cons, positionsFrom_cons, ih]
    have h2 : i + 1 + ks.length = i + (k0 :: ks).length := by
      simp only [List.length_cons]
      omega
    rw [h2, List.cons_append]

theorem positionsFrom_lookup_of_not_mem :
    ∀ (keys : List String) (i : Nat) (k : String), k ∉ keys →
      assocLookup (positionsFrom i keys) k = none := by
  intro keys
  induction keys with
  | nil => intro i k _; rfl
  | cons k0 ks ih =>
    intro i k hk
    simp only [List.mem_cons, not_or] at hk
    rw [positionsFrom_cons, assocLookup_cons, if_neg (fun e => hk.1 e.symm)]
    exact ih (i + 1) k hk.2

theorem assocSet_cons_ne {α : Type} {k0 k : String} (h : k0 ≠ k) (v0 : α)
    (rest : List (String × α)) (v : α) :
    assocSet ((k0, v0) :: rest) k v = (k0, v0) :: assocSet rest k v := by
  have hb : (k0 == k) = false := beq_eq_false_iff_ne.mpr h
  by_cases hs : (rest.find? (fun p => p.1 == k)).isSome = true
  · have hs2 : ((((k0, v0) :: rest)).find? (fun p => p.1 == k)).isSome = true := by
      simp only [List.find?, hb]
      exact hs
    simp only [assocSet, hs2, hs, if_true, List.map_cons]
    rw [if_neg]
    simp only [hb, Bool.false_eq_true, not_false_eq_true]
  · have hs' : (rest.find? (fun p => p.1 == k)).isSome = false :=
      Bool.eq_false_iff.mpr hs
    have hs2 : ((((k0, v0) :: rest)).find? (fun p => p.1 == k)).isSome = false := by
      simp only [List.find?, hb]
      exact hs'
    simp only [assocSet, hs2, hs', Bool.false_eq_true, if_false, List.cons_append]

theorem slots_present {α : Type} :
    ∀ (slots : List (String × α)) (i : Nat) (k : String) (v : α),
      (slots.map Prod.fst).Nodup → k ∈ slots.map Prod.fst →
      ∃ j, j < slots.length ∧
        assocLookup (positionsFrom i (slots.map Prod.fst)) k = some (i + j) ∧
        (assocSet slots k v).map Prod.snd = (slots.map Prod.snd).set j v ∧
        (assocSet slots k v).map Prod.fst = slots.map Prod.fst := by
  intro slots
  induction slots with
  | nil => intro i k v _ hmem; simp at hmem
  | cons p rest ih =>
    intro i k v hnd hmem
    obtain ⟨k0, v0⟩ := p
    simp only [List.map_cons, List.nodup_cons] at hnd
    by_cases hk : k0 = k
    · subst hk
      have hs : (((k0, v0) :: rest).find? (fun p => p.1 == k0)).isSome = true := by
        simp [List.find?]
      have hrw : assocSet ((k0, v0) :: rest) k0 v = (k0, v) :: rest := by
        simp only [assocSet, hs, if_true, List.map_cons]
        rw [if_pos (by simp), map_replace_of_not_mem hnd.1]
      refine ⟨0, by simp, ?_, ?_, ?_⟩
      · rw [List.map_cons, positionsFrom_cons, assocLookup_cons, if_pos rfl]
        simp
      · rw [hrw]
        simp
      · rw [hrw]
        simp
    · have hmem2 : k ∈ rest.map Prod.fst := by
        rcases List.mem_cons.mp hmem with h | h
        · exact absurd h.symm hk
        · exact h
      obtain ⟨j, hj, hlook, hsnd, hfst⟩ := ih (i + 1) k v hnd.2 hmem2
      refine ⟨j + 1, by simpa using Nat.succ_lt_succ hj, ?_, ?_, ?_⟩
      · rw [List.map_cons, positionsFrom_cons, assocLookup_cons, if_neg hk, hlook]
        congr 1
        omega
      · rw [assocSet_cons_ne hk]
        simp only [List.map_cons, List.set_cons_succ, hsnd]
      · rw [assocSet_cons_ne hk]
        simp only [List.map_cons, hfst]

theorem upsert_eq (st : MergeState) (rawItem : JVal) :
    upsert st rawItem =
      if isObjB rawItem = false then st
      else
        match assocLookup st.positionByKey (keyOf st.autoIndex rawItem).1 with
        | some index =>
          { st with
            merged := st.merged.set index rawItem,
            incomingKeys := setAdd st.incomingKeys (keyOf st.autoIndex rawItem).1,
            autoIndex := (keyOf st.autoIndex rawItem).2 }
        | none =>
          { st with
            positionByKey := assocSet st.positionByKey (keyOf st.autoIndex rawItem).1
              st.merged.length,
            merged := st.merged ++ [rawItem],
            incomingKeys := setAdd st.incomingKeys (keyOf st.autoIndex rawItem).1,
            autoIndex := (keyOf st.autoIndex rawItem).2 } := by
  unfold upsert
  rw [shallowCopy_eq]

theorem registerExisting_eq (replace : Bool) (st : MergeState) (rawItem : JVal) :
    registerExisting replace st rawItem =
      if isObjB rawItem = false then st
      else if replace then
        { st with
          existingKeys := setAdd st.existingKeys (keyOf st.autoIndex rawItem).1,
          autoIndex := (keyOf st.autoIndex rawItem).2 }
      else
        match assocLookup st.positionByKey (keyOf st.autoIndex rawItem).1 with
        | some index =>
          { st with
            merged := st.merged.set index rawItem,
            existingKeys := setAdd st.existingKeys (keyOf st.autoIndex rawItem).1,
            autoIndex := (keyOf st.autoIndex rawItem).2 }
        | none =>
          { st with
            positionByKey := assocSet st.positionByKey (keyOf st.autoIndex rawItem).1
              st.merged.length,
            merged := st.merged ++ [rawItem],
            existingKeys := setAdd st.existingKeys (keyOf st.autoIndex rawItem).1,
            autoIndex := (keyOf st.autoIndex rawItem).2 } := by
  unfold registerExisting
  rw [shallowCopy_eq]

theorem slotsInv_initial : SlotsInv initialMergeState [] :=
  ⟨rfl, rfl, List.nodup_nil⟩

theorem upsert_obj {st : MergeState} {slots : List (String × JVal)}
    (hinv : SlotsInv st slots) {rawItem : JVal} (hobj : isObjB rawItem = true) :
    upsert st rawItem =
      { merged := (assocSet slots (keyOf st.autoIndex rawItem).1 rawItem).map Prod.snd,
        positionByKey := positionsFrom 0
          ((assocSet slots (keyOf st.autoIndex rawItem).1 rawItem).map Prod.fst),
        existingKeys := st.existingKeys,
        incomingKeys := setAdd st.incomingKeys (keyOf st.autoIndex rawItem).1,
        autoIndex := (keyOf st.autoIndex rawItem).2 } := by
  obtain ⟨hm, hp, hn⟩ := hinv
  rw [upsert_eq, if_neg (by simp [hobj])]
  by_cases hmem : (keyOf st.autoIndex rawItem).1 ∈ slots.map Prod.fst
  · obtain ⟨j, hj, hlook, hsnd, hfst⟩ :=
      slots_present slots 0 (keyOf st.autoIndex rawItem).1 rawItem hn hmem
    have hl : assocLookup st.positionByKey (keyOf st.autoIndex rawItem).1 = some j := by
      rw [hp, hlook]
      simp
    rw [hl]
    obtain ⟨m, p, ek, ik, a⟩ := st
    simp only at hm hp
    subst hm
    subst hp
    simp only [MergeState.mk.injEq, hsnd, hfst, and_self, and_true, true_and]
  · have hl : assocLookup st.positionByKey (keyOf st.autoIndex rawItem).1 = none := by
      rw [hp]
      exact positionsFrom_lookup_of_not_mem _ 0 _ hmem
    rw [hl]
    have hset : assocSet slots (keyOf st.autoIndex rawItem).1 rawItem =
        slots ++ [((keyOf st.autoIndex rawItem).1, rawItem)] :=
      assocSet_of_not_mem hmem rawItem
    obtain ⟨m, p, ek, ik, a⟩ := st
    simp only at hm hp
    subst hm
    subst hp
    simp only [MergeState.mk.injEq, hset, List.map_append, List.map_cons, List.map_nil,
      and_true, true_and, and_self]
    rw [positionsFrom_append_singleton,
      assocSet_of_not_mem (by rw [map_fst_positionsFrom]; exact hmem)]
    simp

theorem nodup_inv_assocSet {slots : List (String × JVal)} (k : String) (v : JVal)
    (hn : (slots.map Prod.fst).Nodup) :
    ((assocSet slots k v).map Prod.fst).Nodup :=
  nodup_map_fst_assocSet hn v

theorem upsert_obj_inv {st : MergeState} {slots : List (String × JVal)}
    (hinv : SlotsInv st slots) {rawItem : JVal} (hobj : isObjB rawItem = true) :
    SlotsInv (upsert st rawItem)
      (assocSet slots (keyOf st.autoIndex rawItem).1 rawItem) := by
  rw [upsert_obj hinv hobj]
  exact ⟨rfl, rfl, nodup_map_fst_assocSet hinv.2.2 rawItem⟩

theorem registerExisting_merge_obj {st : MergeState} {slots : List (String × JVal)}
    (hinv : SlotsInv st slots) {rawItem : JVal} (hobj : isObjB rawItem = true) :
    registerExisting false st rawItem =
      { merged := (assocSet slots (keyOf st.autoIndex rawItem).1 rawItem).map Prod.snd,
        positionByKey := positionsFrom 0
          ((assocSet slots (keyOf st.autoIndex rawItem).1 rawItem).map Prod.fst),
        existingKeys := setAdd st.existingKeys (keyOf st.autoIndex rawItem).1,
        incomingKeys := st.incomingKeys,
        autoIndex := (keyOf st.autoIndex rawItem).2 } := by
  obtain ⟨hm, hp, hn⟩ := hinv
  rw [registerExisting_eq, if_neg (by simp [hobj]), if_neg (by simp)]
  by_cases hmem : (keyOf st.autoIndex rawItem).1 ∈ slots.map Prod.fst
  · obtain ⟨j, hj, hlook, hsnd, hfst⟩ :=
      slots_present slots 0 (keyOf st.autoIndex rawItem).1 rawItem hn hmem
    have hl : assocLookup st.positionByKey (keyOf st.autoIndex rawItem).1 = some j := by
      rw [hp, hlook]
      simp
    rw [hl]
    obtain ⟨m, p, ek, ik, a⟩ := st
    simp only at hm hp
    subst hm
    subst hp
    simp only [MergeState.mk.injEq, hsnd, hfst, and_self, and_true, true_and]
  · have hl : assocLookup st.positionByKey (keyOf st.autoIndex rawItem).1 = none := by
      rw [hp]
      exact positionsFrom_lookup_of_not_mem _ 0 _ hmem
    rw [hl]
    have hset : assocSet slots (keyOf st.autoIndex rawItem).1 rawItem =
        slots ++ [((keyOf st.autoIndex rawItem).1, rawItem)] :=
      assocSet_of_not_mem hmem rawItem
    obtain ⟨m, p, ek, ik, a⟩ := st
    simp only at hm hp
    subst hm
    subst hp
    simp only [MergeState.mk.injEq, hset, List.map_append, List.map_cons, List.map_nil,
      and_true, true_and, and_self]
    rw [positionsFrom_append_singleton,
      assocSet_of_not_mem (by rw [map_fst_positionsFrom]; exact hmem)]
    simp

theorem keyedScan_nil (auto : Nat) : keyedScan auto [] = ([], auto) := rfl

theorem keyedScan_cons_skip {item : JVal} (h : isObjB item = false)
    (auto : Nat) (rest : List JVal) :
    keyedScan auto (item :: rest) = keyedScan auto rest := by
  simp [keyedScan, h]

theorem keyedScan_cons_obj {item : JVal} (h : isObjB item = true)
    (auto : Nat) (rest : List JVal) :
    keyedScan auto (item :: rest) =
      (((keyOf auto item).1, item) :: (keyedScan (keyOf auto item).2 rest).1,
        (keyedScan (keyOf auto item).2 rest).2) := by
  simp [keyedScan, h]

theorem collapseSlots_nil (slots : List (String × JVal)) :
    collapseSlots slots [] = slots := rfl

theorem collapseSlots_cons (slots : List (String × JVal)) (p : String × JVal)
    (ps : List (String × JVal)) :
    collapseSlots slots (p :: ps) = collapseSlots (assocSet slots p.1 p.2) ps := rfl

theorem setAddKeys_nil (s : List String) : setAddKeys s [] = s := rfl

theorem setAddKeys_cons (s : List String) (p : String × JVal)
    (ps : List (String × JVal)) :
    setAddKeys s (p :: ps) = setAddKeys (setAdd s p.1) ps := rfl

theorem nodup_collapseSlots :
    ∀ (ps slots : List (String × JVal)), (slots.map Prod.fst).Nodup →
      ((collapseSlots slots ps).map Prod.fst).Nodup := by
  intro ps
  induction ps with
  | nil => intro slots h; exact h
  | cons p rest ih =>
    intro slots h
    rw [collapseSlots_cons]
    exact ih _ (nodup_map_fst_assocSet h p.2)

theorem upsert_fold :
    ∀ (incoming : List JVal) (st : MergeState) (slots : List (String × JVal)),
      SlotsInv st slots →
      incoming.foldl upsert st =
        { merged := (collapseSlots slots (keyedScan st.autoIndex incoming).1).map Prod.snd,
          positionByKey := positionsFrom 0
            ((collapseSlots slots (keyedScan st.autoIndex incoming).1).map Prod.fst),
          existingKeys := st.existingKeys,
          incomingKeys := setAddKeys st.incomingKeys (keyedScan st.autoIndex incoming).1,
          autoIndex := (keyedScan st.autoIndex incoming).2 } := by
  intro incoming
  induction incoming with
  | nil =>
    intro st slots hinv
    obtain ⟨hm, hp, hn⟩ := hinv
    obtain ⟨m, p, ek, ik, a⟩ := st
    simp only at hm hp
    subst hm
    subst hp
    simp [keyedScan_nil, collapseSlots_nil, setAddKeys_nil]
  | cons item rest ih =>
    intro st slots hinv
    rw [List.foldl_cons]
    by_cases hobj : isObjB item = true
    · rw [keyedScan_cons_obj hobj]
      have hstep := upsert_obj hinv hobj
      have hinv2 := upsert_obj_inv hinv hobj
      have h2 := ih (upsert st item) (assocSet slots (keyOf st.autoIndex item).1 item) hinv2
      rw [h2, hstep]
      simp only [collapseSlots_cons, setAddKeys_cons]
    · have hskip : isObjB item = false := by
        cases h : isObjB item
        · rfl
        · exact absurd h hobj
      rw [keyedScan_cons_skip hskip]
      have heq : upsert st item = st := by
        rw [upsert_eq, if_pos hskip]
      rw [heq]
      exact ih st slots hinv

theorem registerExisting_replace_fold :
    ∀ (existing : List JVal) (st : MergeState),
      existing.foldl (registerExisting true) st =
        { st with
          existingKeys := setAddKeys st.existingKeys (keyedScan st.autoIndex existing).1,
          autoIndex := (keyedScan st.autoIndex existing).2 } := by
  intro existing
  induction existing with
  | nil => intro st; simp [keyedScan_nil, setAddKeys_nil]
  | cons item rest ih =>
    intro st
    rw [List.foldl_cons]
    by_cases hobj : isObjB item = true
    · rw [keyedScan_cons_obj hobj]
      have hstep : registerExisting true st item =
          { st with
            existingKeys := setAdd st.existingKeys (keyOf st.autoIndex item).1,
            autoIndex := (keyOf st.autoIndex item).2 } := by
        rw [registerExisting_eq, if_neg (by simp [hobj]), if_pos rfl]
      rw [hstep, ih]
      simp only [setAddKeys_cons]
    · have hskip : isObjB item = false := by
        cases h : isObjB item
        · rfl
        · exact absurd h hobj
      rw [keyedScan_cons_skip hskip]
      have heq : registerExisting true st item = st := by
        rw [registerExisting_eq, if_pos hskip]
      rw [heq]
      exact ih st

theorem registerExisting_merge_fold :
    ∀ (existing : List JVal) (st : MergeState) (slots : List (String × JVal)),
      SlotsInv st slots →
      existing.foldl (registerExisting false) st =
        { merged := (collapseSlots slots (keyedScan st.autoIndex existing).1).map Prod.snd,
          positionByKey := positionsFrom 0
            ((collapseSlots slots (keyedScan st.autoIndex existing).1).map Prod.fst),
          existingKeys := setAddKeys st.existingKeys (keyedScan st.autoIndex existing).1,
          incomingKeys := st.incomingKeys,
          autoIndex := (keyedScan st.autoIndex existing).2 } := by
  intro existing
  induction existing with
  | nil =>
    intro st slots hinv
    obtain ⟨hm, hp, hn⟩ := hinv
    obtain ⟨m, p, ek, ik, a⟩ := st
    simp only at hm hp
    subst hm
    subst hp
    simp [keyedScan_nil, collapseSlots_nil, setAddKeys_nil]
  | cons item rest ih =>
    intro st slots hinv
    rw [List.foldl_cons]
    by_cases hobj : isObjB item = true
    · rw [keyedScan_cons_obj hobj]
      have hstep := registerExisting_merge_obj hinv hobj
      have hinv2 : SlotsInv (registerExisting false st item)
          (assocSet slots (keyOf st.autoIndex item).1 item) := by
        rw [hstep]
        exact ⟨rfl, rfl, nodup_map_fst_assocSet hinv.2.2 item⟩
      have h2 := ih (registerExisting false st item)
        (assocSet slots (keyOf st.autoIndex item).1 item) hinv2
      rw [h2, hstep]
      simp only [collapseSlots_cons, setAddKeys_cons]
    · have hskip : isObjB item = false := by
        cases h : isObjB item
        · rfl
        · exact absurd h hobj
      rw [keyedScan_cons_skip hskip]
      have heq : registerExisting false st item = st := by
        rw [registerExisting_eq, if_pos hskip]
      rw [heq]
      exact ih st slots hinv

/-- Complete observable characterization of `mergeCatalogItems` in terms of
the reference pass `keyedScan` and the reference slot construction
`collapseSlots`. -/
theorem mergeCatalogItems_char (existing incoming : List JVal) (replace : Bool) :
    mergeCatalogItems existing incoming replace =
      { items := (collapseSlots
          (if replace then [] else collapseSlots [] (keyedScan 0 existing).1)
          (keyedScan (keyedScan 0 existing).2 incoming).1).map Prod.snd,
        stats := computeStats
          (setAddKeys [] (keyedScan (keyedScan 0 existing).2 incoming).1)
          (setAddKeys [] (keyedScan 0 existing).1) } := by
  have hdef : mergeCatalogItems existing incoming replace =
      { items := (incoming.foldl upsert
          (existing.foldl (registerExisting replace) initialMergeState)).merged,
        stats := computeStats
          (incoming.foldl upsert
            (existing.foldl (registerExisting replace) initialMergeState)).incomingKeys
          (incoming.foldl upsert
            (existing.foldl (registerExisting replace) initialMergeState)).existingKeys } := rfl
  rw [hdef]
  cases replace
  · have h1 := registerExisting_merge_fold existing initialMergeState [] slotsInv_initial
    have hinv1 : SlotsInv (existing.foldl (registerExisting false) initialMergeState)
        (collapseSlots [] (keyedScan 0 existing).1) := by
      rw [h1]
      exact ⟨rfl, rfl, nodup_collapseSlots _ _ List.nodup_nil⟩
    have h2 := upsert_fold incoming _ _ hinv1
    rw [h2, h1]
    simp [initialMergeState]
  · have h1 := registerExisting_replace_fold existing initialMergeState
    have hinv1 : SlotsInv (existing.foldl (registerExisting true) initialMergeState) [] := by
      rw [h1]
      exact ⟨rfl, rfl, List.nodup_nil⟩
    have h2 := upsert_fold incoming _ _ hinv1
    rw [h2, h1]
    simp [initialMergeState]

/-! ### Decimal representation facts (for `generateOtp` and `mkAuto`) -/

/-- Numeric value of a decimal digit string (inverse of `Nat.toDigitsCore`). -/
def decList (l : List Char) : Nat :=
  l.foldl (fun a c => a * 10 + (c.toNat - 48)) 0

theorem digitChar_toNat {d : Nat} (h : d < 10) : (Nat.digitChar d).toNat = 48 + d := by
  interval_cases d <;> decide

theorem digitChar_isDigit {d : Nat} (h : d < 10) : (Nat.digitChar d).isDigit = true := by
  interval_cases d <;> decide

theorem decList_append_singleton (l : List Char) (c : Char) :
    decList (l ++ [c]) = decList l * 10 + (c.toNat - 48) := by
  simp [decList, List.foldl_append]

theorem toDigitsCore_shape :
    ∀ (f n : Nat) (acc : List Char),
      Nat.toDigitsCore 10 f n acc = Nat.toDigitsCore 10 f n [] ++ acc := by
  intro f
  induction f with
  | zero => intro n acc; simp [Nat.toDigitsCore]
  | succ f ih =>
    intro n acc
    by_cases h : n / 10 = 0
    · simp [Nat.toDigitsCore, h]
    · simp only [Nat.toDigitsCore, h, if_neg, if_false]
      rw [ih (n / 10) (Nat.digitChar (n % 10) :: acc), ih (n / 10) [Nat.digitChar (n % 10)]]
      simp

theorem toDigitsCore_val :
    ∀ (f n : Nat), 1 ≤ f → n < 10 ^ f →
      decList (Nat.toDigitsCore 10 f n []) = n := by
  intro f
  induction f with
  | zero => intro n h hlt; omega
  | succ f ih =>
    intro n _ hlt
    by_cases h : n / 10 = 0
    · have hn : n < 10 := by omega
      have hm : n % 10 = n := Nat.mod_eq_of_lt hn
      simp [Nat.toDigitsCore, h, decList, hm]
      rw [digitChar_toNat hn]
      omega
    · have hf : 1 ≤ f := by
        rcases Nat.eq_zero_or_pos f with hf0 | hf0
        · subst hf0
          have : n < 10 := by simpa using hlt
          omega
        · exact hf0
      have hdiv : n / 10 < 10 ^ f := by
        rw [Nat.div_lt_iff_lt_mul (by norm_num)]
        calc n < 10 ^ (f + 1) := hlt
          _ = 10 ^ f * 10 := by rw [pow_succ]
      simp only [Nat.toDigitsCore, h, if_false]
      rw [toDigitsCore_shape, decList_append_singleton, ih (n / 10) hf hdiv,
        digitChar_toNat (Nat.mod_lt n (by norm_num))]
      omega

theorem repr_val (n : Nat) : decList (Nat.repr n).data = n := by
  have h1 : n < 10 ^ (n + 1) := by
    calc n < 2 ^ n := Nat.lt_two_pow n
      _ ≤ 10 ^ n := Nat.pow_le_pow_left (by norm_num) n
      _ ≤ 10 ^ (n + 1) := Nat.pow_le_pow_right (by norm_num) (Nat.le_succ n)
  have h2 := toDigitsCore_val (n + 1) n (by omega) h1
  simpa [Nat.repr, Nat.toDigits, List.asString] using h2

theorem natRepr_inj {m n : Nat} (h : (Nat.repr m).data = (Nat.repr n).data) : m = n := by
  have h2 := congrArg decList h
  rw [repr_val, repr_val] at h2
  exact h2

theorem mkAuto_inj {m n : Nat} (h : mkAuto m = mkAuto n) : m = n := by
  unfold mkAuto at h
  have hd := congrArg String.data h
  rw [String.data_append, String.data_append] at hd
  exact natRepr_inj (List.append_cancel_left hd)

theorem toDigitsCore_len :
    ∀ (f n : Nat), 1 ≤ f → n < 10 ^ f →
      (Nat.toDigitsCore 10 f n []).length = Nat.log 10 n + 1 := by
  intro f
  induction f with
  | zero => intro n h hlt; omega
  | succ f ih =>
    intro n _ hlt
    by_cases h : n / 10 = 0
    · have hn : n < 10 := by omega
      simp [Nat.toDigitsCore, h, Nat.log_eq_zero_iff.mpr (Or.inl hn)]
    · have hge : 10 ≤ n := by omega
      have hf : 1 ≤ f := by
        rcases Nat.eq_zero_or_pos f with hf0 | hf0
        · subst hf0
          have : n < 10 := by simpa using hlt
          omega
        · exact hf0
      have hdiv : n / 10 < 10 ^ f := by
        rw [Nat.div_lt_iff_lt_mul (by norm_num)]
        calc n < 10 ^ (f + 1) := hlt
          _ = 10 ^ f * 10 := by rw [pow_succ]
      have hlog : Nat.log 10 (n / 10) = Nat.log 10 n - 1 := Nat.log_div_base 10 n
      have hpos : 0 < Nat.log 10 n := Nat.log_pos (by norm_num) hge
      simp only [Nat.toDigitsCore, h, if_false]
      rw [toDigitsCore_shape, List.length_append, ih (n / 10) hf hdiv]
      simp only [List.length_cons, List.length_nil]
      omega

theorem repr_length_eq (n : Nat) : (Nat.repr n).length = Nat.log 10 n + 1 := by
  have h1 : n < 10 ^ (n + 1) := by
    calc n < 2 ^ n := Nat.lt_two_pow n
      _ ≤ 10 ^ n := Nat.pow_le_pow_left (by norm_num) n
      _ ≤ 10 ^ (n + 1) := Nat.pow_le_pow_right (by norm_num) (Nat.le_succ n)
  have h2 := toDigitsCore_len (n + 1) n (by omega) h1
  simpa [Nat.repr, Nat.toDigits, String.length, List.asString] using h2

theorem repr_length_six {n : Nat} (h1 : 100000 ≤ n) (h2 : n ≤ 999999) :
    (Nat.repr n).length = 6 := by
  rw [repr_length_eq]
  have hlog : Nat.log 10 n = 5 :=
    Nat.log_eq_of_pow_le_of_lt_pow (by norm_num; omega) (by norm_num; omega)
  omega

theorem toDigitsCore_digits :
    ∀ (f n : Nat) (acc : List Char), (∀ c ∈ acc, c.isDigit = true) →
      ∀ c ∈ Nat.toDigitsCore 10 f n acc, c.isDigit = true := by
  intro f
  induction f with
  | zero =>
    intro n acc hacc c hc
    simp only [Nat.toDigitsCore] at hc
    exact hacc c hc
  | succ f ih =>
    intro n acc hacc c hc
    by_cases h : n / 10 = 0
    · simp only [Nat.toDigitsCore, h, if_pos] at hc
      rcases List.mem_cons.mp hc with hc | hc
      · subst hc
        exact digitChar_isDigit (Nat.mod_lt n (by norm_num))
      · exact hacc c hc
    · simp only [Nat.toDigitsCore, h, if_false] at hc
      refine ih (n / 10) _ ?_ c hc
      intro x hx
      rcases List.mem_cons.mp hx with h1 | h1
      · subst h1
        exact digitChar_isDigit (Nat.mod_lt n (by norm_num))
      · exact hacc x h1

theorem repr_all_digits (n : Nat) : ∀ c ∈ (Nat.repr n).data, c.isDigit = true := by
  intro c hc
  refine toDigitsCore_digits (n + 1) n [] (by simp) c ?_
  simpa [Nat.repr, Nat.toDigits, List.asString] using hc

/-! ### Key-set and statistics lemmas -/

theorem map_fst_assocSet {α : Type} (slots : List (String × α)) (k : String) (v : α) :
    (assocSet slots k v).map Prod.fst = setAdd (slots.map Prod.fst) k := by
  by_cases h : k ∈ slots.map Prod.fst
  · rw [map_fst_assocSet_of_mem h, setAdd, if_pos h]
  · rw [assocSet_of_not_mem h, setAdd, if_neg h]
    simp

theorem map_fst_collapseSlots :
    ∀ (ps slots : List (String × JVal)),
      (collapseSlots slots ps).map Prod.fst = setAddKeys (slots.map Prod.fst) ps := by
  intro ps
  induction ps with
  | nil => intro slots; rfl
  | cons p rest ih =>
    intro slots
    rw [collapseSlots_cons, setAddKeys_cons, ih, map_fst_assocSet]

theorem mem_setAddKeys :
    ∀ (ps : List (String × JVal)) (s : List String) (x : String),
      x ∈ setAddKeys s ps ↔ x ∈ s ∨ x ∈ ps.map Prod.fst := by
  intro ps
  induction ps with
  | nil => intro s x; simp [setAddKeys_nil]
  | cons p rest ih =>
    intro s x
    rw [setAddKeys_cons, ih, mem_setAdd]
    simp only [List.map_cons, List.mem_cons]
    tauto

theorem nodup_setAddKeys :
    ∀ (ps : List (String × JVal)) (s : List String),
      s.Nodup → (setAddKeys s ps).Nodup := by
  intro ps
  induction ps with
  | nil => intro s h; exact h
  | cons p rest ih => intro s h; exact ih _ (nodup_setAdd h p.1)

theorem computeStats_foldl (ik : List String) :
    ∀ (ek : List String) (a u : Nat),
      (ik.foldl (fun s k => if k ∈ ek then { s with updated := s.updated + 1 }
          else { s with added := s.added + 1 })
        { added := a, updated := u } : MergeStats) =
      { added := a + ik.countP (fun k => !(decide (k ∈ ek))),
        updated := u + ik.countP (fun k => decide (k ∈ ek)) } := by
  induction ik with
  | nil => intro ek a u; simp
  | cons k rest ih =>
    intro ek a u
    rw [List.foldl_cons]
    by_cases h : k ∈ ek
    · rw [if_pos h, ih]
      have hd : decide (k ∈ ek) = true := decide_eq_true h
      simp only [List.countP_cons, hd, Bool.not_true, Bool.false_eq_true, if_false,
        if_true, MergeStats.mk.injEq]
      omega
    · rw [if_neg h, ih]
      have hd : decide (k ∈ ek) = false := decide_eq_false h
      simp only [List.countP_cons, hd, Bool.not_false, Bool.false_eq_true, if_false,
        if_true, MergeStats.mk.injEq]
      omega

theorem computeStats_spec (ik ek : List String) :
    computeStats ik ek =
      { added := ik.countP (fun k => !(decide (k ∈ ek))),
        updated := ik.countP (fun k => decide (k ∈ ek)) } := by
  unfold computeStats
  rw [computeStats_foldl]
  simp

/-! ### Auto-key lemmas -/

/-- Number of items in a scan that receive a synthetic `auto:` key. -/
def keylessCount (items : List JVal) : Nat :=
  (items.filter (fun v => isObjB v && (catalogKey v).isNone)).length

/-- The keys of the keyless pairs of a keyed scan, in scan order. -/
def autosOf (ps : List (String × JVal)) : List String :=
  (ps.filter (fun p => (catalogKey p.2).isNone)).map Prod.fst

theorem autosOf_cons_none {p : String × JVal} (h : catalogKey p.2 = none)
    (ps : List (String × JVal)) : autosOf (p :: ps) = p.1 :: autosOf ps := by
  simp [autosOf, List.filter_cons, h]

theorem autosOf_cons_some {p : String × JVal} {k : String} (h : catalogKey p.2 = some k)
    (ps : List (String × JVal)) : autosOf (p :: ps) = autosOf ps := by
  simp [autosOf, List.filter_cons, h]

theorem isObjB_false_of_not_true {item : JVal} (h : ¬ isObjB item = true) :
    isObjB item = false := by
  cases hv : isObjB item
  · rfl
  · exact absurd hv h

theorem keyedScan_counter :
    ∀ (items : List JVal) (auto : Nat),
      (keyedScan auto items).2 = auto + keylessCount items := by
  intro items
  induction items with
  | nil => intro auto; simp [keyedScan_nil, keylessCount]
  | cons item rest ih =>
    intro auto
    by_cases hobj : isObjB item = true
    · cases hk : catalogKey item with
      | none =>
        rw [keyedScan_cons_obj hobj]
        simp only [keyOf, hk]
        rw [ih]
        have hc : keylessCount (item :: rest) = keylessCount rest + 1 := by
          simp [keylessCount, List.filter_cons, hobj, hk]
        omega
      | some k =>
        rw [keyedScan_cons_obj hobj]
        simp only [keyOf, hk]
        rw [ih]
        have hc : keylessCount (item :: rest) = keylessCount rest := by
          simp [keylessCount, List.filter_cons, hobj, hk]
        omega
    · have hskip := isObjB_false_of_not_true hobj
      rw [keyedScan_cons_skip hskip, ih]
      have hc : keylessCount (item :: rest) = keylessCount rest := by
        simp [keylessCount, List.filter_cons, hskip]
      omega

theorem keyedScan_autos :
    ∀ (items : List JVal) (auto : Nat),
      autosOf (keyedScan auto items).1 =
        (List.range' auto (keylessCount items)).map mkAuto := by
  intro items
  induction items with
  | nil => intro auto; simp [keyedScan_nil, autosOf, keylessCount]
  | cons item rest ih =>
    intro auto
    by_cases hobj : isObjB item = true
    · cases hk : catalogKey item with
      | none =>
        rw [keyedScan_cons_obj hobj]
        simp only [keyOf, hk]
        have hc : keylessCount (item :: rest) = keylessCount rest + 1 := by
          simp [keylessCount, List.filter_cons, hobj, hk]
        rw [hc, List.range'_succ, autosOf_cons_none hk, ih (auto + 1), List.map_cons]
      | some k =>
        rw [keyedScan_cons_obj hobj]
        simp only [keyOf, hk]
        have hc : keylessCount (item :: rest) = keylessCount rest := by
          simp [keylessCount, List.filter_cons, hobj, hk]
        rw [hc, autosOf_cons_some hk, ih auto]
    · have hskip := isObjB_false_of_not_true hobj
      rw [keyedScan_cons_skip hskip, ih]
      have hc : keylessCount (item :: rest) = keylessCount rest := by
        simp [keylessCount, List.filter_cons, hskip]
      rw [hc]

theorem keyedScan_pairs :
    ∀ (items : List JVal) (auto : Nat) (p : String × JVal),
      p ∈ (keyedScan auto items).1 →
      (catalogKey p.2 = some p.1 ∨
        (catalogKey p.2 = none ∧
          ∃ j, auto ≤ j ∧ j < (keyedScan auto items).2 ∧ p.1 = mkAuto j)) := by
  intro items
  induction items with
  | nil => intro auto p hp; simp [keyedScan_nil] at hp
  | cons item rest ih =>
    intro auto p hp
    by_cases hobj : isObjB item = true
    · cases hk : catalogKey item with
      | none =>
        rw [keyedScan_cons_obj hobj] at hp
        simp only [keyOf, hk] at hp
        rw [keyedScan_cons_obj hobj]
        simp only [keyOf, hk]
        rcases List.mem_cons.mp hp with hp | hp
        · subst hp
          refine Or.inr ⟨hk, auto, le_rfl, ?_, rfl⟩
          rw [keyedScan_counter]
          omega
        · rcases ih (auto + 1) p hp with h | ⟨h1, j, hj1, hj2, hj3⟩
          · exact Or.inl h
          · exact Or.inr ⟨h1, j, by omega, hj2, hj3⟩
      | some k =>
        rw [keyedScan_cons_obj hobj] at hp
        simp only [keyOf, hk] at hp
        rw [keyedScan_cons_obj hobj]
        simp only [keyOf, hk]
        rcases List.mem_cons.mp hp with hp | hp
        · subst hp
          exact Or.inl hk
        · exact ih auto p hp
    · have hskip := isObjB_false_of_not_true hobj
      rw [keyedScan_cons_skip hskip] at hp
      rw [keyedScan_cons_skip hskip]
      exact ih auto p hp

/-! ### Shape of derived keys -/

theorem idKeyFor_shape {o : Option JVal} {k : String} (h : idKeyFor o = some k) :
    ∃ r, k = "id:" ++ r := by
  match o with
  | none => simp [idKeyFor] at h
  | some JVal.null => simp [idKeyFor] at h
  | some (JVal.str s) =>
    by_cases hs : s = ""
    · simp [idKeyFor, hs] at h
    · simp only [idKeyFor, hs, if_neg, if_false] at h
      exact ⟨jvalToString (JVal.str s), by
        rcases h with h
        simp at h
        rw [← h]⟩
  | some (JVal.bool b) =>
    refine ⟨jvalToString (JVal.bool b), ?_⟩
    simp [idKeyFor] at h
    rw [← h]
  | some (JVal.num n) =>
    refine ⟨jvalToString (JVal.num n), ?_⟩
    simp [idKeyFor] at h
    rw [← h]
  | some (JVal.obj fs) =>
    refine ⟨jvalToString (JVal.obj fs), ?_⟩
    simp [idKeyFor] at h
    rw [← h]

theorem titleKeyOf_shape {item : JVal} {k : String} (h : titleKeyOf item = some k) :
    ∃ r, k = "title:" ++ r := by
  unfold titleKeyOf at h
  cases hf : getField item "title" with
  | none => rw [hf] at h; simp at h
  | some v =>
    rw [hf] at h
    cases v with
    | str t =>
      by_cases ht : jsTrim t = ""
      · simp [ht] at h
      · simp only [ht, if_neg, if_false] at h
        exact ⟨jsToLower (jsTrim t), by
          simp at h
          rw [← h]⟩
    | null => simp at h
    | bool b => simp at h
    | num n => simp at h
    | obj fs => simp at h

theorem catalogKey_shape {item : JVal} {k : String} (h : catalogKey item = some k) :
    (∃ r, k = "id:" ++ r) ∨ (∃ r, k = "title:" ++ r) := by
  unfold catalogKey at h
  cases item with
  | obj fs =>
    cases hi : idKeyFor (getField (JVal.obj fs) "id") with
    | some k2 =>
      rw [hi] at h
      simp only [Option.some.injEq] at h
      subst h
      exact Or.inl (idKeyFor_shape hi)
    | none =>
      rw [hi] at h
      exact Or.inr (titleKeyOf_shape h)
  | null => simp at h
  | bool b => simp at h
  | num n => simp at h
  | str s_1 => simp at h

theorem mkAuto_ne_catalogKey {item : JVal} {k : String} (h : catalogKey item = some k)
    (n : Nat) : mkAuto n ≠ k := by
  intro he
  have hd := congrArg String.data he
  rw [mkAuto, String.data_append] at hd
  have ha : ("auto:" : String).data = ['a', 'u', 't', 'o', ':'] := rfl
  rcases catalogKey_shape h with ⟨r, hr⟩ | ⟨r, hr⟩
  · rw [hr, String.data_append] at hd
    have hi : ("id:" : String).data = ['i', 'd', ':'] := rfl
    rw [ha, hi] at hd
    have hh := congrArg List.head? hd
    simp at hh
  · rw [hr, String.data_append] at hd
    have hi : ("title:" : String).data = ['t', 'i', 't', 'l', 'e', ':'] := rfl
    rw [ha, hi] at hd
    have hh := congrArg List.head? hd
    simp at hh

/-! ### OTP cache lemmas -/

theorem assocLookup_assocSet_self {α : Type} :
    ∀ (m : List (String × α)) (k : String) (v : α),
      assocLookup (assocSet m k v) k = some v := by
  intro m
  induction m with
  | nil =>
    intro k v
    rw [assocSet_of_not_mem (by simp), List.nil_append, assocLookup_cons, if_pos rfl]
  | cons p rest ih =>
    intro k v
    obtain ⟨k0, v0⟩ := p
    by_cases h : k0 = k
    · subst h
      have hs : (((k0, v0) :: rest).find? (fun p => p.1 == k0)).isSome = true := by
        simp [List.find?]
      simp only [assocSet, hs, if_true, List.map_cons]
      rw [if_pos (by simp), assocLookup_cons, if_pos rfl]
    · rw [assocSet_cons_ne h, assocLookup_cons, if_neg h]
      exact ih k v

theorem assocLookup_assocDelete_self {α : Type} :
    ∀ (m : List (String × α)) (k : String),
      assocLookup (assocDelete m k) k = none := by
  intro m
  induction m with
  | nil => intro k; rfl
  | cons p rest ih =>
    intro k
    by_cases h : p.1 = k
    · have hb : (p.1 != k) = false := by
        simp [bne, h]
      simp only [assocDelete, List.filter_cons, hb, Bool.false_eq_true, if_false]
      exact ih k
    · have hb : (p.1 != k) = true := by
        simp [bne, h]
      simp only [assocDelete, List.filter_cons, hb, if_true]
      rw [assocLookup_cons, if_neg h]
      exact ih k

theorem catalogKey_some_obj {item : JVal} {k : String}
    (h : catalogKey item = some k) : isObjB item = true := by
  cases item with
  | obj fs => rfl
  | null => simp [catalogKey] at h
  | bool b => simp [catalogKey] at h
  | num n => simp [catalogKey] at h
  | str s2 => simp [catalogKey] at h

theorem validateOtp_none {cache : OtpCache} {p : String} (c : String) (t : Nat)
    (h : assocLookup cache p = none) :
    validateOtp cache p c t = (false, cache) := by
  unfold validateOtp
  rw [h]

theorem validateOtp_some {cache : OtpCache} {p : String} {e : OtpEntry} (c : String)
    (t : Nat) (he : assocLookup cache p = some e) :
    validateOtp cache p c t =
      if e.expiresAt < t then (false, assocDelete cache p)
      else (e.code == c,
        if (e.code == c) = true then assocDelete cache p else cache) := by
  unfold validateOtp
  rw [he]

/-! ## Claim theorems -/

/-- C1: `validate(p, c)` returns false and changes nothing when no entry
exists; returns false and deletes the entry when it expired strictly before
now; on an unexpired entry compares codes as exact strings — deleting and
returning true on a match, returning false and leaving the cache intact on
a mismatch.  Consequently, after `issue(p)` stored code `c`, a second
`validate(p, c)` after any first `validate(p, c)` returns false. -/
theorem validateOtp_single_use (cache : OtpCache) (p c : String) (t : Nat) :
    (assocLookup cache p = none → validateOtp cache p c t = (false, cache)) ∧
    (∀ e, assocLookup cache p = some e → e.expiresAt < t →
      validateOtp cache p c t = (false, assocDelete cache p)) ∧
    (∀ e, assocLookup cache p = some e → ¬ e.expiresAt < t → e.code = c →
      validateOtp cache p c t = (true, assocDelete cache p)) ∧
    (∀ e, assocLookup cache p = some e → ¬ e.expiresAt < t → e.code ≠ c →
      validateOtp cache p c t = (false, cache)) ∧
    (∀ t0 t1 t2,
      (validateOtp (validateOtp (storeOtp cache p c t0) p c t1).2 p c t2).1 = false) := by
  refine ⟨?_, ?_, ?_, ?_, ?_⟩
  · intro h
    exact validateOtp_none c t h
  · intro e he hex
    rw [validateOtp_some c t he, if_pos hex]
  · intro e he hex hc
    rw [validateOtp_some c t he, if_neg hex]
    have hb : (e.code == c) = true := beq_iff_eq.mpr hc
    simp [hb]
  · intro e he hex hc
    rw [validateOtp_some c t he, if_neg hex]
    have hb : (e.code == c) = false := beq_eq_false_iff_ne.mpr hc
    simp [hb]
  · intro t0 t1 t2
    have hl : assocLookup (storeOtp cache p c t0) p =
        some { code := c, expiresAt := t0 + otpTtlMs } :=
      assocLookup_assocSet_self cache p _
    have h2 : (validateOtp (storeOtp cache p c t0) p c t1).2 =
        assocDelete (storeOtp cache p c t0) p := by
      rw [validateOtp_some c t1 hl]
      by_cases hex : t0 + otpTtlMs < t1
      · rw [if_pos hex]
      · rw [if_neg hex]
        simp
    rw [h2, validateOtp_none c t2 (assocLookup_assocDelete_self _ p)]

/-- C1 witness: concrete round trip at phone `"555"`, code `"123456"`. -/
theorem validateOtp_single_use_witness :
    validateOtp [] "555" "123456" 0 = (false, []) ∧
    (validateOtp (validateOtp (storeOtp [] "555" "123456" 0) "555" "123456" 5).2
      "555" "123456" 6).1 = false :=
  ⟨(validateOtp_single_use [] "555" "123456" 0).1 rfl,
   (validateOtp_single_use [] "555" "123456" 0).2.2.2.2 0 5 6⟩

/-- C2: in merge mode an incoming item whose derived key already occupies a
slot overwrites that slot's value in place and leaves the position map
unchanged; in particular the spec's two-item example updates slot 0 in
place with stats `{added := 0, updated := 1}`. -/
theorem merge_position_stability :
    (∀ (st : MergeState) (item : JVal) (k : String) (i : Nat),
      catalogKey item = some k → assocLookup st.positionByKey k = some i →
      (upsert st item).merged = st.merged.set i item ∧
      (upsert st item).positionByKey = st.positionByKey ∧
      (upsert st item).autoIndex = st.autoIndex) ∧
    mergeCatalogItems
        [JVal.obj [("id", JVal.num 1), ("v", JVal.str "a")],
         JVal.obj [("id", JVal.num 2), ("v", JVal.str "b")]]
        [JVal.obj [("id", JVal.num 1), ("v", JVal.str "z")]] false =
      { items := [JVal.obj [("id", JVal.num 1), ("v", JVal.str "z")],
                  JVal.obj [("id", JVal.num 2), ("v", JVal.str "b")]],
        stats := { added := 0, updated := 1 } } := by
  constructor
  · intro st item k i hk hl
    have hobj : isObjB item = true := catalogKey_some_obj hk
    rw [upsert_eq, if_neg (by simp [hobj])]
    simp only [keyOf, hk]
    rw [hl]
    exact ⟨rfl, rfl, rfl⟩
  · rfl

/-- C2 witness: the step-level fact applied at a concrete seeded state. -/
theorem merge_position_stability_witness :
    (upsert
        { merged := [JVal.obj [("id", JVal.num 1), ("v", JVal.str "a")]],
          positionByKey := [("id:1", 0)], existingKeys := ["id:1"],
          incomingKeys := [], autoIndex := 0 }
        (JVal.obj [("id", JVal.num 1), ("v", JVal.str "z")])).merged =
      [JVal.obj [("id", JVal.num 1), ("v", JVal.str "a")]].set 0
        (JVal.obj [("id", JVal.num 1), ("v", JVal.str "z")]) ∧
    (upsert
        { merged := [JVal.obj [("id", JVal.num 1), ("v", JVal.str "a")]],
          positionByKey := [("id:1", 0)], existingKeys := ["id:1"],
          incomingKeys := [], autoIndex := 0 }
        (JVal.obj [("id", JVal.num 1), ("v", JVal.str "z")])).positionByKey =
      [("id:1", 0)] ∧
    (upsert
        { merged := [JVal.obj [("id", JVal.num 1), ("v", JVal.str "a")]],
          positionByKey := [("id:1", 0)], existingKeys := ["id:1"],
          incomingKeys := [], autoIndex := 0 }
        (JVal.obj [("id", JVal.num 1), ("v", JVal.str "z")])).autoIndex = 0 :=
  merge_position_stability.1
    { merged := [JVal.obj [("id", JVal.num 1), ("v", JVal.str "a")]],
      positionByKey := [("id:1", 0)], existingKeys := ["id:1"],
      incomingKeys := [], autoIndex := 0 }
    (JVal.obj [("id", JVal.num 1), ("v", JVal.str "z")]) "id:1" 0 rfl rfl

theorem idKeyFor_none_iff (o : Option JVal) :
    idKeyFor o = none ↔ o = none ∨ o = some JVal.null ∨ o = some (JVal.str "") := by
  match o with
  | none => simp [idKeyFor]
  | some JVal.null => simp [idKeyFor]
  | some (JVal.str s) =>
    by_cases hs : s = ""
    · subst hs
      simp [idKeyFor]
    · simp [idKeyFor, hs]
  | some (JVal.bool b) => simp [idKeyFor]
  | some (JVal.num n) => simp [idKeyFor]
  | some (JVal.obj fs) => simp [idKeyFor]

theorem idKeyFor_usable {idv : JVal} (h1 : idv ≠ JVal.null) (h2 : idv ≠ JVal.str "") :
    idKeyFor (some idv) = some ("id:" ++ jvalToString idv) := by
  match idv with
  | JVal.null => exact absurd rfl h1
  | JVal.str s =>
    have hs : s ≠ "" := by
      intro e
      exact h2 (by rw [e])
    simp [idKeyFor, hs]
  | JVal.bool b => rfl
  | JVal.num n => rfl
  | JVal.obj fs => rfl

theorem jsToLower_empty_iff (s : String) : jsToLower s = "" ↔ s = "" := by
  obtain ⟨data⟩ := s
  simp [jsToLower, String.ext_iff]

theorem catalogKey_obj_id {fields : List (String × JVal)} {idv : JVal}
    (h : getField (JVal.obj fields) "id" = some idv)
    (h1 : idv ≠ JVal.null) (h2 : idv ≠ JVal.str "") :
    catalogKey (JVal.obj fields) = some ("id:" ++ jvalToString idv) := by
  simp only [catalogKey]
  rw [h, idKeyFor_usable h1 h2]

theorem catalogKey_obj_title {fields : List (String × JVal)}
    (hid : idKeyFor (getField (JVal.obj fields) "id") = none) :
    catalogKey (JVal.obj fields) = titleKeyOf (JVal.obj fields) := by
  simp only [catalogKey]
  rw [hid]

theorem titleKeyOf_str {item : JVal} {t : String}
    (ht : getField item "title" = some (JVal.str t)) (hne : jsTrim t ≠ "") :
    titleKeyOf item = some ("title:" ++ jsToLower (jsTrim t)) := by
  unfold titleKeyOf
  rw [ht]
  exact if_neg hne

/-- C4: key derivation priority — `id:<id>` exactly when the `id` field is
present and neither `null` nor the empty string; `title:<trim-lowered>`
when the id test fails and a usable string title is present; `none`
(leading to a synthetic positional key) otherwise; and equal usable ids, or
equal trimmed-lowercased titles in the absence of a usable id, always give
equal keys. -/
theorem catalogKey_priority :
    (∀ o : Option JVal,
      idKeyFor o = none ↔ o = none ∨ o = some JVal.null ∨ o = some (JVal.str "")) ∧
    (∀ (item idv : JVal), getField item "id" = some idv →
      idv ≠ JVal.null → idv ≠ JVal.str "" →
      catalogKey item = some ("id:" ++ jvalToString idv)) ∧
    (∀ (fields : List (String × JVal)) (t : String),
      idKeyFor (getField (JVal.obj fields) "id") = none →
      getField (JVal.obj fields) "title" = some (JVal.str t) → jsTrim t ≠ "" →
      catalogKey (JVal.obj fields) = some ("title:" ++ jsToLower (jsTrim t))) ∧
    (∀ (fields : List (String × JVal)),
      idKeyFor (getField (JVal.obj fields) "id") = none →
      titleKeyOf (JVal.obj fields) = none →
      catalogKey (JVal.obj fields) = none) ∧
    (∀ (a b idv : JVal), getField a "id" = some idv → getField b "id" = some idv →
      idv ≠ JVal.null → idv ≠ JVal.str "" →
      catalogKey a = catalogKey b ∧
      catalogKey a = some ("id:" ++ jvalToString idv)) ∧
    (∀ (a b : JVal) (ta tb : String),
      idKeyFor (getField a "id") = none → idKeyFor (getField b "id") = none →
      getField a "title" = some (JVal.str ta) →
      getField b "title" = some (JVal.str tb) →
      jsTrim ta ≠ "" → jsToLower (jsTrim ta) = jsToLower (jsTrim tb) →
      catalogKey a = catalogKey b ∧
      catalogKey a = some ("title:" ++ jsToLower (jsTrim ta))) := by
  have hid : ∀ (item idv : JVal), getField item "id" = some idv →
      idv ≠ JVal.null → idv ≠ JVal.str "" →
      catalogKey item = some ("id:" ++ jvalToString idv) := by
    intro item idv h h1 h2
    match item with
    | JVal.obj fields => exact catalogKey_obj_id h h1 h2
    | JVal.null => simp [getField] at h
    | JVal.bool b => simp [getField] at h
    | JVal.num n => simp [getField] at h
    | JVal.str s2 => simp [getField] at h
  have htitle : ∀ (item : JVal) (t : String), isObjB item = true →
      idKeyFor (getField item "id") = none →
      getField item "title" = some (JVal.str t) → jsTrim t ≠ "" →
      catalogKey item = some ("title:" ++ jsToLower (jsTrim t)) := by
    intro item t hobj hidn ht htn
    match item with
    | JVal.obj fields =>
      rw [catalogKey_obj_title hidn, titleKeyOf_str ht htn]
    | JVal.null => simp [isObjB] at hobj
    | JVal.bool b => simp [isObjB] at hobj
    | JVal.num n => simp [isObjB] at hobj
    | JVal.str s2 => simp [isObjB] at hobj
  refine ⟨idKeyFor_none_iff, hid, ?_, ?_, ?_, ?_⟩
  · intro fields t hidn ht htn
    exact htitle (JVal.obj fields) t rfl hidn ht htn
  · intro fields hidn htn
    rw [catalogKey_obj_title hidn, htn]
  · intro a b idv ha hb h1 h2
    rw [hid a idv ha h1 h2, hid b idv hb h1 h2]
    exact ⟨rfl, rfl⟩
  · intro a b ta tb hia hib hta htb htan heq
    have hobja : isObjB a = true := by
      match a with
      | JVal.obj fields => rfl
      | JVal.null => simp [getField] at hta
      | JVal.bool b2 => simp [getField] at hta
      | JVal.num n => simp [getField] at hta
      | JVal.str s2 => simp [getField] at hta
    have hobjb : isObjB b = true := by
      match b with
      | JVal.obj fields => rfl
      | JVal.null => simp [getField] at htb
      | JVal.bool b2 => simp [getField] at htb
      | JVal.num n => simp [getField] at htb
      | JVal.str s2 => simp [getField] at htb
    have htbn : jsTrim tb ≠ "" := by
      intro e
      apply htan
      rw [← jsToLower_empty_iff]
      rw [heq, e]
      exact (jsToLower_empty_iff "").mpr rfl
    rw [htitle a ta hobja hia hta htan, htitle b tb hobjb hib htb htbn, heq]
    exact ⟨rfl, rfl⟩

/-- C4 witness: a concrete item keyed by its `id`. -/
theorem catalogKey_priority_witness :
    catalogKey (JVal.obj [("id", JVal.str "x"), ("title", JVal.str "T")]) =
      some ("id:" ++ jvalToString (JVal.str "x")) :=
  catalogKey_priority.2.1 (JVal.obj [("id", JVal.str "x"), ("title", JVal.str "T")])
    (JVal.str "x") rfl
    (by intro h; cases h)
    (by
      intro h
      injection h with h2
      exact absurd h2 (by decide))

/-- The client record `ensureClientByPhone` creates for an unseen phone. -/
def defaultClient (p freshId createdAtIso : String) : Client :=
  { id := freshId
    name := "Cliente " ++ p
    phone := p
    status := some "pending"
    createdAt := createdAtIso
    validatedAt := none }

theorem requestOtpHandler_some (p : String) (rand : Nat)
    (freshId createdAtIso : String) (t : Nat) (cache : OtpCache)
    (clients : List Client) (hp : jsTrim p = p) (hne : p ≠ "") :
    requestOtpHandler (some p) rand freshId createdAtIso t cache clients =
      (some (generateOtp rand), storeOtp cache p (generateOtp rand) t,
        (ensureClientByPhone clients p freshId createdAtIso).2) := by
  simp only [requestOtpHandler, hp]
  rw [if_neg hne]

theorem ensureClientByPhone_found {clients : List Client} {p : String}
    (freshId createdAtIso : String) {cl : Client} (hp : jsTrim p = p) (hne : p ≠ "")
    (h : clients.find? (fun c => c.phone == p) = some cl) :
    ensureClientByPhone clients p freshId createdAtIso = (some cl, clients) := by
  simp only [ensureClientByPhone, hp]
  rw [if_neg hne, h]

theorem ensureClientByPhone_missing {clients : List Client} {p : String}
    (freshId createdAtIso : String) (hp : jsTrim p = p) (hne : p ≠ "")
    (h : clients.find? (fun c => c.phone == p) = none) :
    ensureClientByPhone clients p freshId createdAtIso =
      (some (defaultClient p freshId createdAtIso),
        clients ++ [defaultClient p freshId createdAtIso]) := by
  simp only [ensureClientByPhone, hp]
  rw [if_neg hne, h]
  rfl

/-- C6: for a non-blank (trimmed) phone, the OTP-request handler returns a
6-digit numeric code representing a value in `[100000, 999999]`, stores
`{code, expiresAt = now + 5 min}` keyed by the phone — overwriting any
existing entry, making any previous code unvalidatable — and guarantees a
client record for the phone, creating one with the default fields when
absent and leaving the list untouched when present. -/
theorem issue_otp_behavior (p : String) (rand : Nat)
    (freshId createdAtIso : String) (t : Nat) (cache : OtpCache)
    (clients : List Client) (hp : jsTrim p = p) (hne : p ≠ "")
    (hr : rand < 900000) :
    requestOtpHandler (some p) rand freshId createdAtIso t cache clients =
      (some (generateOtp rand), storeOtp cache p (generateOtp rand) t,
        (ensureClientByPhone clients p freshId createdAtIso).2) ∧
    generateOtp rand = Nat.repr (100000 + rand) ∧
    (generateOtp rand).length = 6 ∧
    (∀ c ∈ (generateOtp rand).data, c.isDigit = true) ∧
    100000 ≤ 100000 + rand ∧ 100000 + rand ≤ 999999 ∧
    assocLookup (storeOtp cache p (generateOtp rand) t) p =
      some { code := generateOtp rand, expiresAt := t + otpTtlMs } ∧
    (∀ (oldCode : String) (t2 : Nat), oldCode ≠ generateOtp rand →
      (validateOtp (storeOtp cache p (generateOtp rand) t) p oldCode t2).1 = false) ∧
    (∃ cl ∈ (ensureClientByPhone clients p freshId createdAtIso).2, cl.phone = p) ∧
    (clients.find? (fun c => c.phone == p) = none →
      (ensureClientByPhone clients p freshId createdAtIso).2 =
        clients ++ [defaultClient p freshId createdAtIso]) ∧
    (∀ cl, clients.find? (fun c => c.phone == p) = some cl →
      (ensureClientByPhone clients p freshId createdAtIso).2 = clients) := by
  refine ⟨requestOtpHandler_some p rand freshId createdAtIso t cache clients hp hne,
    rfl, ?_, ?_, by omega, by omega, assocLookup_assocSet_self cache p _, ?_, ?_, ?_, ?_⟩
  · exact repr_length_six (by omega) (by omega)
  · exact repr_all_digits (100000 + rand)
  · intro oldCode t2 hold
    have hl : assocLookup (storeOtp cache p (generateOtp rand) t) p =
        some { code := generateOtp rand, expiresAt := t + otpTtlMs } :=
      assocLookup_assocSet_self cache p _
    rw [validateOtp_some oldCode t2 hl]
    by_cases hex : t + otpTtlMs < t2
    · rw [if_pos hex]
    · rw [if_neg hex]
      have hb : (generateOtp rand == oldCode) = false :=
        beq_eq_false_iff_ne.mpr (fun e => hold e.symm)
      simp [hb]
  · cases hf : clients.find? (fun c => c.phone == p) with
    | some cl =>
      rw [ensureClientByPhone_found freshId createdAtIso hp hne hf]
      refine ⟨cl, List.mem_of_find?_eq_some hf, ?_⟩
      have := List.find?_some hf
      simpa using this
    | none =>
      rw [ensureClientByPhone_missing freshId createdAtIso hp hne hf]
      exact ⟨defaultClient p freshId createdAtIso, by simp, rfl⟩
  · intro hf
    rw [ensureClientByPhone_missing freshId createdAtIso hp hne hf]
  · intro cl hf
    rw [ensureClientByPhone_found freshId createdAtIso hp hne hf]

/-- C6 witness: issuing for phone `"555"` with `rand = 23456`. -/
theorem issue_otp_behavior_witness :
    requestOtpHandler (some "555") 23456 "u1" "iso" 0 [] [] =
      (some (generateOtp 23456), storeOtp [] "555" (generateOtp 23456) 0,
        (ensureClientByPhone [] "555" "u1" "iso").2) ∧
    (generateOtp 23456).length = 6 :=
  ⟨(issue_otp_behavior "555" 23456 "u1" "iso" 0 [] [] rfl (by decide) (by omega)).1,
   (issue_otp_behavior "555" 23456 "u1" "iso" 0 [] [] rfl (by decide) (by omega)).2.2.1⟩

theorem foldl_skip {α β : Type} (f : β → α → β) (p : α → Bool)
    (h : ∀ b a, p a = false → f b a = b) :
    ∀ (l : List α) (s : β), List.foldl f s (l.filter p) = List.foldl f s l := by
  intro l
  induction l with
  | nil => intro s; rfl
  | cons a rest ih =>
    intro s
    rw [List.filter_cons]
    cases hp : p a
    · rw [if_neg (by simp [hp]), List.foldl_cons, h s a hp]
      exact ih s
    · rw [if_pos (by simp), List.foldl_cons, List.foldl_cons]
      exact ih (f s a)

theorem mergeCatalogItems_def (existing incoming : List JVal) (replace : Bool) :
    mergeCatalogItems existing incoming replace =
      { items := (incoming.foldl upsert
          (existing.foldl (registerExisting replace) initialMergeState)).merged,
        stats := computeStats
          (incoming.foldl upsert
            (existing.foldl (registerExisting replace) initialMergeState)).incomingKeys
          (incoming.foldl upsert
            (existing.foldl (registerExisting replace) initialMergeState)).existingKeys } :=
  rfl

/-- C7: incoming elements that are not objects are silently skipped — the
merge result is unchanged when they are filtered out beforehand — and the
handler still succeeds, reporting `received` as the length of the incoming
list before any filtering. -/
theorem non_object_items_skipped :
    (∀ (existing incoming : List JVal) (replace : Bool),
      mergeCatalogItems existing incoming replace =
        mergeCatalogItems existing (incoming.filter isObjB) replace) ∧
    (∀ (items : List JVal) (modeField : Option JVal) (current : List JVal),
      ∃ resp saved,
        postAdminCatalog (some items) modeField current = some (resp, saved) ∧
        resp.received = items.length ∧ resp.ok = true) := by
  constructor
  · intro existing incoming replace
    rw [mergeCatalogItems_def, mergeCatalogItems_def]
    have hup : ∀ (st : MergeState) (item : JVal), isObjB item = false →
        upsert st item = st := by
      intro st item h
      rw [upsert_eq, if_pos h]
    rw [foldl_skip upsert isObjB hup incoming]
  · intro items modeField current
    exact ⟨_, _, rfl, rfl, rfl⟩

theorem take_append_take {α : Type} (n : Nat) (a b : List α) :
    (a ++ b.take n).take n = (a ++ b).take n := by
  rw [List.take_append_eq_append_take, List.take_append_eq_append_take, List.take_take,
    Nat.min_eq_left (Nat.sub_le n a.length)]

theorem appendPlaybackLog_take (logs : List LogEntry) (e : LogEntry) :
    appendPlaybackLog logs e = (e :: logs).take maxLogEntries := by
  simp only [appendPlaybackLog]
  by_cases h : maxLogEntries < (e :: logs).length
  · rw [if_pos h]
  · rw [if_neg h]
    exact (List.take_of_length_le (Nat.le_of_not_lt h)).symm

theorem logs_fold_take :
    ∀ (entries logs : List LogEntry), logs.length ≤ maxLogEntries →
      entries.foldl appendPlaybackLog logs =
        (entries.reverse ++ logs).take maxLogEntries := by
  intro entries
  induction entries with
  | nil =>
    intro logs h
    simp [List.take_of_length_le h]
  | cons e rest ih =>
    intro logs h
    rw [List.foldl_cons, ih (appendPlaybackLog logs e) (by
      rw [appendPlaybackLog_take]
      exact List.length_take_le _ _)]
    rw [appendPlaybackLog_take, take_append_take, List.reverse_cons, List.append_assoc,
      List.singleton_append]

/-- C8: appending a playback log entry prepends it (newest first) and then
truncates to `MAX_LOG_ENTRIES`; inserting `MAX + 1` entries into an empty
log leaves exactly `MAX` entries, newest first, with the oldest (first
inserted) entry dropped. -/
theorem playback_log_capped :
    (∀ (logs : List LogEntry) (e : LogEntry),
      appendPlaybackLog logs e =
        (if maxLogEntries < (e :: logs).length then (e :: logs).take maxLogEntries
         else e :: logs)) ∧
    (∀ entries : List LogEntry, entries.length = maxLogEntries + 1 →
      entries.foldl appendPlaybackLog [] = (entries.drop 1).reverse ∧
      (entries.foldl appendPlaybackLog []).length = maxLogEntries) := by
  constructor
  · intro logs e
    simp only [appendPlaybackLog]
  · intro entries h
    have h0 : entries.foldl appendPlaybackLog [] =
        (entries.reverse ++ []).take maxLogEntries :=
      logs_fold_take entries [] (by simp [maxLogEntries])
    rw [List.append_nil] at h0
    match entries, h with
    | e0 :: rest, h =>
      have hlen : rest.length = maxLogEntries := by simpa using h
      have hrev : rest.reverse.length = maxLogEntries := by simpa using hlen
      have hfirst : (e0 :: rest).foldl appendPlaybackLog [] =
          ((e0 :: rest).drop 1).reverse := by
        rw [h0, List.reverse_cons, List.take_left' hrev, List.drop_one, List.tail_cons]
      refine ⟨hfirst, ?_⟩
      rw [hfirst]
      simpa using hlen

/-- C8 witness: 201 concrete insertions into the empty log. -/
theorem playback_log_capped_witness :
    (List.replicate (maxLogEntries + 1)
        { id := "i", event := "e", source := "s", contentId := none,
          reason := none, timestamp := "ts" : LogEntry }).foldl
      appendPlaybackLog [] =
      ((List.replicate (maxLogEntries + 1)
          { id := "i", event := "e", source := "s", contentId := none,
            reason := none, timestamp := "ts" : LogEntry }).drop 1).reverse :=
  (playback_log_capped.2 _ (by simp)).1

theorem patchFirst_spec :
    ∀ (clients : List Client) (idArg status nowIso : String),
      (∀ u clients2, patchFirst idArg status nowIso clients = some (u, clients2) →
        ∃ pre c post,
          clients = pre ++ c :: post ∧ (∀ x ∈ pre, x.id ≠ idArg) ∧ c.id = idArg ∧
          clients2 = pre ++ u :: post ∧
          u = { c with
            status := some status,
            validatedAt := if jsToLower status = "active" then some nowIso
              else c.validatedAt }) ∧
      ((∃ c ∈ clients, c.id = idArg) →
        (patchFirst idArg status nowIso clients).isSome = true) := by
  intro clients idArg status nowIso
  induction clients with
  | nil =>
    constructor
    · intro u c2 h
      simp [patchFirst] at h
    · rintro ⟨c, hc, _⟩
      simp at hc
  | cons c rest ih =>
    constructor
    · intro u clients2 h
      by_cases hc : c.id = idArg
      · rw [patchFirst, if_pos hc] at h
        simp only [Option.some.injEq, Prod.mk.injEq] at h
        refine ⟨[], c, rest, by simp, by simp, hc, ?_, h.1.symm⟩
        rw [List.nil_append, ← h.1, ← h.2]
      · rw [patchFirst, if_neg hc] at h
        cases hrec : patchFirst idArg status nowIso rest with
        | none =>
          rw [hrec] at h
          simp at h
        | some pr =>
          obtain ⟨u2, rest2⟩ := pr
          rw [hrec] at h
          simp only [Option.some.injEq, Prod.mk.injEq] at h
          obtain ⟨pre, c0, post, he1, he2, he3, he4, he5⟩ := ih.1 u2 rest2 hrec
          refine ⟨c :: pre, c0, post, by rw [List.cons_append, he1], ?_, he3, ?_, ?_⟩
          · intro x hx
            rcases List.mem_cons.mp hx with hx | hx
            · rw [hx]
              exact hc
            · exact he2 x hx
          · rw [← h.2, List.cons_append, he4, h.1]
          · rw [← h.1]
            exact he5
    · rintro ⟨c0, hc0, hid⟩
      by_cases hc : c.id = idArg
      · rw [patchFirst, if_pos hc]
        rfl
      · rw [patchFirst, if_neg hc]
        have hrs : (patchFirst idArg status nowIso rest).isSome = true := by
          apply ih.2
          rcases List.mem_cons.mp hc0 with h0 | h0
          · exact absurd (h0 ▸ hid) hc
          · exact ⟨c0, h0, hid⟩
        cases hrec : patchFirst idArg status nowIso rest with
        | none => rw [hrec] at hrs; simp at hrs
        | some pr =>
          obtain ⟨u2, rest2⟩ := pr
          rfl

/-- C9: a status update rewrites only the first client whose id matches; of
that client only `status` and `validatedAt` change — `id`, `phone`, `name`
and `createdAt` are preserved, `validatedAt` is set to the current time
exactly when the new status is `"active"` case-insensitively and keeps its
previous value otherwise — and every other client is untouched. -/
theorem patch_client_status_frame (clients : List Client)
    (idArg status nowIso : String) (hst : status ≠ "") :
    (∀ u clients2, patchClientStatus clients idArg status nowIso = .ok u clients2 →
      ∃ pre c post,
        clients = pre ++ c :: post ∧ (∀ x ∈ pre, x.id ≠ idArg) ∧ c.id = idArg ∧
        clients2 = pre ++ u :: post ∧
        u.id = c.id ∧ u.phone = c.phone ∧ u.name = c.name ∧
        u.createdAt = c.createdAt ∧ u.status = some status ∧
        u.validatedAt =
          (if jsToLower status = "active" then some nowIso else c.validatedAt)) ∧
    ((∃ c ∈ clients, c.id = idArg) →
      ∃ u clients2, patchClientStatus clients idArg status nowIso = .ok u clients2) := by
  constructor
  · intro u clients2 h
    unfold patchClientStatus at h
    rw [if_neg hst] at h
    cases hf : patchFirst idArg status nowIso clients with
    | none =>
      rw [hf] at h
      simp at h
    | some pr =>
      obtain ⟨u2, c2⟩ := pr
      rw [hf] at h
      simp only [PatchResult.ok.injEq] at h
      obtain ⟨pre, c, post, he1, he2, he3, he4, he5⟩ :=
        (patchFirst_spec clients idArg status nowIso).1 u2 c2 hf
      refine ⟨pre, c, post, he1, he2, he3, ?_, ?_, ?_, ?_, ?_, ?_, ?_⟩
      · rw [← h.2, he4, ← h.1]
      · rw [← h.1, he5]
      · rw [← h.1, he5]
      · rw [← h.1, he5]
      · rw [← h.1, he5]
      · rw [← h.1, he5]
      · rw [← h.1, he5]
  · intro hex
    have hs := (patchFirst_spec clients idArg status nowIso).2 hex
    obtain ⟨pr, hpr⟩ := Option.isSome_iff_exists.mp hs
    obtain ⟨u2, c2⟩ := pr
    refine ⟨u2, c2, ?_⟩
    unfold patchClientStatus
    rw [if_neg hst, hpr]

/-- C9 witness: activating a concrete client. -/
theorem patch_client_status_frame_witness :
    ∃ u clients2,
      patchClientStatus
        [{ id := "c1", name := "N", phone := "555", status := some "pending",
           createdAt := "t0", validatedAt := none }] "c1" "active" "t1" =
        .ok u clients2 :=
  (patch_client_status_frame
    [{ id := "c1", name := "N", phone := "555", status := some "pending",
       createdAt := "t0", validatedAt := none }] "c1" "active" "t1"
    (by decide)).2
    ⟨{ id := "c1", name := "N", phone := "555", status := some "pending",
       createdAt := "t0", validatedAt := none }, by simp, rfl⟩

theorem head?_dropWhile_ws (l : List Char) :
    ∀ a, (l.dropWhile Char.isWhitespace).head? = some a →
      Char.isWhitespace a = false := by
  induction l with
  | nil => intro a h; simp at h
  | cons c rest ih =>
    intro a h
    rw [List.dropWhile_cons] at h
    by_cases hc : Char.isWhitespace c = true
    · rw [if_pos hc] at h
      exact ih a h
    · rw [if_neg hc] at h
      simp only [List.head?_cons, Option.some.injEq] at h
      rw [← h]
      exact Bool.eq_false_iff.mpr hc

theorem dropWhile_dropWhile (p : Char → Bool) (l : List Char) :
    List.dropWhile p (List.dropWhile p l) = List.dropWhile p l := by
  induction l with
  | nil => rfl
  | cons a rest ih =>
    rw [List.dropWhile_cons]
    by_cases h : p a = true
    · rw [if_pos h]
      exact ih
    · rw [if_neg h, List.dropWhile_cons, if_neg h]

theorem dropWhile_eq_self_of_head (p : Char → Bool) (l : List Char)
    (h : ∀ a, l.head? = some a → p a = false) :
    List.dropWhile p l = l := by
  cases l with
  | nil => rfl
  | cons a rest =>
    rw [List.dropWhile_cons, if_neg]
    rw [h a rfl]
    simp

theorem jsTrim_data (s : String) :
    (jsTrim s).data =
      (List.dropWhile Char.isWhitespace
        (List.dropWhile Char.isWhitespace s.data).reverse).reverse := rfl

theorem jsTrim_idem (s : String) : jsTrim (jsTrim s) = jsTrim s := by
  apply String.ext
  rw [jsTrim_data, jsTrim_data]
  have hstep1 : List.dropWhile Char.isWhitespace
      (List.dropWhile Char.isWhitespace
        (List.dropWhile Char.isWhitespace s.data).reverse).reverse =
      (List.dropWhile Char.isWhitespace
        (List.dropWhile Char.isWhitespace s.data).reverse).reverse := by
    apply dropWhile_eq_self_of_head
    intro a ha
    rw [List.head?_reverse] at ha
    have hXne : List.dropWhile Char.isWhitespace
        (List.dropWhile Char.isWhitespace s.data).reverse ≠ [] := by
      intro he
      rw [he] at ha
      simp at ha
    obtain ⟨pre, hpre⟩ :=
      List.dropWhile_suffix (l := (List.dropWhile Char.isWhitespace s.data).reverse)
        Char.isWhitespace
    have hlast : (List.dropWhile Char.isWhitespace s.data).reverse.getLast? = some a := by
      rw [← hpre, List.getLast?_append_of_ne_nil pre hXne, ha]
    rw [List.getLast?_reverse] at hlast
    exact head?_dropWhile_ws s.data a hlast
  rw [hstep1, List.reverse_reverse, dropWhile_dropWhile]

/-- C10: the OTP-gated lookup never errors — a missing or blank (after
trim) phone or otp, or a failed validation, yields the empty list — and a
successful validation yields exactly one summary with only the `id`,
`name`, `phone` and `status` fields (status defaulting to `"pending"`),
reusing the client record when one exists for the phone and creating it
otherwise. -/
theorem get_users_gate (t : Nat) (freshId createdAtIso : String)
    (cache : OtpCache) (clients : List Client) :
    (∀ otpQ, getUsersHandler none otpQ t freshId createdAtIso cache clients =
      ([], cache, clients)) ∧
    (∀ phoneQ, getUsersHandler phoneQ none t freshId createdAtIso cache clients =
      ([], cache, clients)) ∧
    (∀ p o, jsTrim p = "" ∨ jsTrim o = "" →
      getUsersHandler (some p) (some o) t freshId createdAtIso cache clients =
        ([], cache, clients)) ∧
    (∀ p o, jsTrim p ≠ "" → jsTrim o ≠ "" →
      (validateOtp cache (jsTrim p) (jsTrim o) t).1 = false →
      getUsersHandler (some p) (some o) t freshId createdAtIso cache clients =
        ([], (validateOtp cache (jsTrim p) (jsTrim o) t).2, clients)) ∧
    (∀ p o, jsTrim p ≠ "" → jsTrim o ≠ "" →
      (validateOtp cache (jsTrim p) (jsTrim o) t).1 = true →
      (∀ cl, clients.find? (fun c => c.phone == jsTrim p) = some cl →
        getUsersHandler (some p) (some o) t freshId createdAtIso cache clients =
          ([summaryOf cl], (validateOtp cache (jsTrim p) (jsTrim o) t).2, clients)) ∧
      (clients.find? (fun c => c.phone == jsTrim p) = none →
        getUsersHandler (some p) (some o) t freshId createdAtIso cache clients =
          ([summaryOf (defaultClient (jsTrim p) freshId createdAtIso)],
            (validateOtp cache (jsTrim p) (jsTrim o) t).2,
            clients ++ [defaultClient (jsTrim p) freshId createdAtIso]))) ∧
    (∀ cl : Client, summaryOf cl =
      { id := cl.id, name := cl.name, phone := cl.phone,
        status := cl.status.getD "pending" }) := by
  refine ⟨fun otpQ => rfl, ?_, ?_, ?_, ?_, fun cl => rfl⟩
  · intro phoneQ
    cases phoneQ <;> rfl
  · intro p o hblank
    simp only [getUsersHandler, Option.map_some']
    rw [if_pos hblank]
  · intro p o hp ho hv
    simp only [getUsersHandler, Option.map_some']
    rw [if_neg (by
      rw [not_or]
      exact ⟨hp, ho⟩)]
    rw [if_pos hv]
  · intro p o hp ho hv
    constructor
    · intro cl hf
      simp only [getUsersHandler, Option.map_some']
      rw [if_neg (by
        rw [not_or]
        exact ⟨hp, ho⟩)]
      rw [if_neg (by rw [hv]; simp), hf]
    · intro hf
      simp only [getUsersHandler, Option.map_some']
      rw [if_neg (by
        rw [not_or]
        exact ⟨hp, ho⟩)]
      rw [if_neg (by rw [hv]; simp), hf,
        ensureClientByPhone_missing freshId createdAtIso (jsTrim_idem p) hp hf]

/-- C10 witness: gate outcomes at a concrete request. -/
theorem get_users_gate_witness :
    getUsersHandler (some "555") (some "123456") 10 "u1" "iso"
        (storeOtp [] "555" "123456" 0) [] =
      ([summaryOf (defaultClient (jsTrim "555") "u1" "iso")],
        (validateOtp (storeOtp [] "555" "123456" 0) (jsTrim "555")
          (jsTrim "123456") 10).2,
        [] ++ [defaultClient (jsTrim "555") "u1" "iso"]) :=
  ((get_users_gate 10 "u1" "iso" (storeOtp [] "555" "123456" 0) []).2.2.2.2.1
    "555" "123456" (by decide) (by decide) (by rfl)).2 rfl

/-- C3: in replace mode the result is exactly the collapsed incoming batch
— one slot per distinct incoming key, last value per key, in
first-occurrence order — while the statistics classify every distinct
incoming key as updated precisely when it was derived from some existing
item (whose value is nevertheless gone from the output); in particular
`merge([A,B], [C], replace)` yields `[C]` with `updated = 1` when `C`'s key
matches `A`'s or `B`'s and `added = 1` otherwise. -/
theorem replace_mode_spec :
    (∀ existing incoming : List JVal,
      (mergeCatalogItems existing incoming true).items =
        (collapseSlots [] (keyedScan (keyedScan 0 existing).2 incoming).1).map
          Prod.snd) ∧
    (∀ (existing incoming : List JVal) (replace : Bool),
      (mergeCatalogItems existing incoming replace).stats =
        { added := (setAddKeys [] (keyedScan (keyedScan 0 existing).2 incoming).1).countP
            (fun k => !(decide (k ∈ (keyedScan 0 existing).1.map Prod.fst))),
          updated := (setAddKeys [] (keyedScan (keyedScan 0 existing).2 incoming).1).countP
            (fun k => decide (k ∈ (keyedScan 0 existing).1.map Prod.fst)) }) ∧
    (∀ A B C : JVal, isObjB A = true → isObjB B = true → isObjB C = true →
      (mergeCatalogItems [A, B] [C] true).items = [C] ∧
      (mergeCatalogItems [A, B] [C] true).stats =
        (if (keyOf (keyedScan 0 [A, B]).2 C).1 ∈ (keyedScan 0 [A, B]).1.map Prod.fst
         then { added := 0, updated := 1 }
         else { added := 1, updated := 0 })) := by
  have hitems : ∀ existing incoming : List JVal,
      (mergeCatalogItems existing incoming true).items =
        (collapseSlots [] (keyedScan (keyedScan 0 existing).2 incoming).1).map
          Prod.snd := by
    intro existing incoming
    rw [mergeCatalogItems_char]
    simp
  have hstats : ∀ (existing incoming : List JVal) (replace : Bool),
      (mergeCatalogItems existing incoming replace).stats =
        { added := (setAddKeys [] (keyedScan (keyedScan 0 existing).2 incoming).1).countP
            (fun k => !(decide (k ∈ (keyedScan 0 existing).1.map Prod.fst))),
          updated := (setAddKeys [] (keyedScan (keyedScan 0 existing).2 incoming).1).countP
            (fun k => decide (k ∈ (keyedScan 0 existing).1.map Prod.fst)) } := by
    intro existing incoming replace
    rw [mergeCatalogItems_char]
    show computeStats _ _ = _
    rw [computeStats_spec]
    have hp : (fun k => decide (k ∈ setAddKeys [] (keyedScan 0 existing).1)) =
        (fun k => decide (k ∈ (keyedScan 0 existing).1.map Prod.fst)) := by
      funext k
      refine decide_eq_decide.mpr ?_
      rw [mem_setAddKeys]
      simp
    have hq : (fun k => !(decide (k ∈ setAddKeys [] (keyedScan 0 existing).1))) =
        (fun k => !(decide (k ∈ (keyedScan 0 existing).1.map Prod.fst))) := by
      funext k
      rw [congrFun hp k]
    rw [hp, hq]
  refine ⟨hitems, hstats, ?_⟩
  intro A B C hA hB hC
  have hki : (keyedScan (keyedScan 0 [A, B]).2 [C]).1 =
      [((keyOf (keyedScan 0 [A, B]).2 C).1, C)] := by
    rw [keyedScan_cons_obj hC, keyedScan_nil]
  constructor
  · rw [hitems [A, B] [C], hki, collapseSlots_cons, collapseSlots_nil,
      assocSet_of_not_mem (by simp)]
    simp
  · rw [hstats [A, B] [C] true, hki]
    have hsk : setAddKeys [] [((keyOf (keyedScan 0 [A, B]).2 C).1, C)] =
        [(keyOf (keyedScan 0 [A, B]).2 C).1] := by
      rw [setAddKeys_cons, setAddKeys_nil]
      simp [setAdd]
    rw [hsk]
    by_cases hm : (keyOf (keyedScan 0 [A, B]).2 C).1 ∈ (keyedScan 0 [A, B]).1.map Prod.fst
    · rw [if_pos hm]
      have hd : decide ((keyOf (keyedScan 0 [A, B]).2 C).1 ∈
          (keyedScan 0 [A, B]).1.map Prod.fst) = true := decide_eq_true hm
      simp [List.countP_cons, hd]
    · rw [if_neg hm]
      have hd : decide ((keyOf (keyedScan 0 [A, B]).2 C).1 ∈
          (keyedScan 0 [A, B]).1.map Prod.fst) = false := decide_eq_false hm
      simp [List.countP_cons, hd]

/-- C3 witness: the instance at three concrete items, one matching key. -/
theorem replace_mode_spec_witness :
    (mergeCatalogItems
        [JVal.obj [("id", JVal.num 1), ("v", JVal.str "a")],
         JVal.obj [("id", JVal.num 2), ("v", JVal.str "b")]]
        [JVal.obj [("id", JVal.num 1), ("v", JVal.str "z")]] true).items =
      [JVal.obj [("id", JVal.num 1), ("v", JVal.str "z")]] :=
  (replace_mode_spec.2.2
    (JVal.obj [("id", JVal.num 1), ("v", JVal.str "a")])
    (JVal.obj [("id", JVal.num 2), ("v", JVal.str "b")])
    (JVal.obj [("id", JVal.num 1), ("v", JVal.str "z")]) rfl rfl rfl).1

theorem range'_append_own :
    ∀ (m s n : Nat), List.range' s m ++ List.range' (s + m) n = List.range' s (m + n) := by
  intro m
  induction m with
  | zero => intro s n; simp
  | succ m ih =>
    intro s n
    have h1 : m + 1 + n = (m + n) + 1 := by omega
    rw [h1, List.range'_succ, List.range'_succ, List.cons_append, ← ih (s + 1) n]
    have h2 : s + 1 + m = s + (m + 1) := by omega
    rw [h2]

theorem mkAuto_injective : Function.Injective mkAuto :=
  fun _ _ h => mkAuto_inj h

theorem range'_zero_append (m n : Nat) :
    List.range' 0 m ++ List.range' m n = List.range' 0 (m + n) := by
  have h := range'_append_own m 0 n
  simpa using h

/-- C5: synthetic `auto:` keys come from one strictly increasing counter
spanning the existing-then-incoming scan — with exactly one keyless
existing object it gets `auto:0` and the first keyless incoming object gets
`auto:1` — all auto keys of a call are pairwise distinct and never equal an
`id:`- or `title:`-derived key, so every keyless incoming item occupies its
own result slot and is counted as added, never updated. -/
theorem auto_key_single_counter :
    (∀ (items : List JVal) (auto : Nat),
      (keyedScan auto items).2 = auto + keylessCount items) ∧
    (∀ (items : List JVal) (auto : Nat),
      autosOf (keyedScan auto items).1 =
        (List.range' auto (keylessCount items)).map mkAuto) ∧
    (∀ existing incoming : List JVal,
      autosOf (keyedScan 0 existing).1 ++
          autosOf (keyedScan (keyedScan 0 existing).2 incoming).1 =
        (List.range' 0 (keylessCount existing + keylessCount incoming)).map mkAuto ∧
      (autosOf (keyedScan 0 existing).1 ++
          autosOf (keyedScan (keyedScan 0 existing).2 incoming).1).Nodup) ∧
    (∀ (item : JVal) (k : String) (n : Nat), catalogKey item = some k → mkAuto n ≠ k) ∧
    (∀ (existing incoming : List JVal) (replace : Bool),
      keylessCount incoming ≤ (mergeCatalogItems existing incoming replace).stats.added ∧
      keylessCount incoming ≤ (mergeCatalogItems existing incoming replace).items.length) ∧
    (∀ X Y : JVal, isObjB X = true → isObjB Y = true →
      catalogKey X = none → catalogKey Y = none →
      (keyedScan 0 [X]).1 = [(mkAuto 0, X)] ∧
      (keyedScan (keyedScan 0 [X]).2 [Y]).1 = [(mkAuto 1, Y)] ∧
      mergeCatalogItems [X] [Y] false =
        { items := [X, Y], stats := { added := 1, updated := 0 } }) := by
  have hnodupAutos : ∀ (items : List JVal) (auto : Nat),
      (autosOf (keyedScan auto items).1).Nodup := by
    intro items auto
    rw [keyedScan_autos]
    exact List.Nodup.map mkAuto_injective (by simp [List.nodup_range'])
  have hmemKeys : ∀ (items : List JVal) (auto : Nat) (a : String),
      a ∈ autosOf (keyedScan auto items).1 →
      a ∈ (keyedScan auto items).1.map Prod.fst := by
    intro items auto a ha
    simp only [autosOf] at ha
    obtain ⟨p, hp, hpa⟩ := List.mem_map.mp ha
    exact List.mem_map.mpr ⟨p, (List.mem_filter.mp hp).1, hpa⟩
  have hkeyless : ∀ (items : List JVal) (auto : Nat) (a : String),
      a ∈ autosOf (keyedScan auto items).1 → ∃ j, auto ≤ j ∧ a = mkAuto j := by
    intro items auto a ha
    simp only [autosOf] at ha
    obtain ⟨p, hp, hpa⟩ := List.mem_map.mp ha
    have hmem := (List.mem_filter.mp hp).1
    have hnone : catalogKey p.2 = none :=
      Option.isNone_iff_eq_none.mp (List.mem_filter.mp hp).2
    rcases keyedScan_pairs items auto p hmem with hsome | ⟨_, j, hj1, _, hj3⟩
    · rw [hnone] at hsome
      exact absurd hsome (by simp)
    · exact ⟨j, hj1, by rw [← hpa, hj3]⟩
  have hnotE : ∀ (existing incoming : List JVal) (a : String),
      a ∈ autosOf (keyedScan (keyedScan 0 existing).2 incoming).1 →
      a ∉ (keyedScan 0 existing).1.map Prod.fst := by
    intro existing incoming a ha hmm
    obtain ⟨j, hj1, hja⟩ := hkeyless incoming (keyedScan 0 existing).2 a ha
    obtain ⟨q, hq, hqa⟩ := List.mem_map.mp hmm
    rcases keyedScan_pairs existing 0 q hq with hsome | ⟨_, j2, _, hj2b, hj2c⟩
    · exact (mkAuto_ne_catalogKey hsome j) (by rw [← hja, hqa])
    · have heq : mkAuto j = mkAuto j2 := by
        rw [← hja, ← hqa]
        exact hj2c
      have hjj := mkAuto_inj heq
      omega
  refine ⟨keyedScan_counter, keyedScan_autos, ?_,
    fun item k n h => mkAuto_ne_catalogKey h n, ?_, ?_⟩
  · intro existing incoming
    have h1 := keyedScan_autos existing 0
    have hc := keyedScan_counter existing 0
    rw [Nat.zero_add] at hc
    have h2 := keyedScan_autos incoming (keyedScan 0 existing).2
    have hcat : autosOf (keyedScan 0 existing).1 ++
        autosOf (keyedScan (keyedScan 0 existing).2 incoming).1 =
        (List.range' 0 (keylessCount existing + keylessCount incoming)).map mkAuto := by
      rw [h1, h2, hc, ← List.map_append, range'_zero_append]
    refine ⟨hcat, ?_⟩
    rw [hcat]
    exact List.Nodup.map mkAuto_injective (by simp [List.nodup_range'])
  · intro existing incoming replace
    have hAIlen : (autosOf (keyedScan (keyedScan 0 existing).2 incoming).1).length =
        keylessCount incoming := by
      rw [keyedScan_autos]
      simp
    constructor
    · rw [mergeCatalogItems_char]
      show keylessCount incoming ≤ (computeStats _ _).added
      rw [computeStats_spec]
      show keylessCount incoming ≤ List.countP _ _
      rw [List.countP_eq_length_filter]
      have hsub : autosOf (keyedScan (keyedScan 0 existing).2 incoming).1 ⊆
          (setAddKeys [] (keyedScan (keyedScan 0 existing).2 incoming).1).filter
            (fun k => !(decide (k ∈ setAddKeys [] (keyedScan 0 existing).1))) := by
        intro a ha
        rw [List.mem_filter]
        constructor
        · rw [mem_setAddKeys]
          exact Or.inr (hmemKeys incoming _ a ha)
        · have hnm : a ∉ setAddKeys [] (keyedScan 0 existing).1 := by
            rw [mem_setAddKeys]
            rintro (h0 | h0)
            · simp at h0
            · exact hnotE existing incoming a ha h0
          simp [hnm]
      calc keylessCount incoming
          = (autosOf (keyedScan (keyedScan 0 existing).2 incoming).1).length :=
            hAIlen.symm
        _ ≤ _ := (List.subperm_of_subset (hnodupAutos incoming _) hsub).length_le
    · rw [mergeCatalogItems_char]
      show keylessCount incoming ≤ ((collapseSlots _ _).map Prod.snd).length
      rw [List.length_map]
      have hlen2 : (collapseSlots
            (if replace then [] else collapseSlots [] (keyedScan 0 existing).1)
            (keyedScan (keyedScan 0 existing).2 incoming).1).length =
          (setAddKeys
            ((if replace then ([] : List (String × JVal))
              else collapseSlots [] (keyedScan 0 existing).1).map Prod.fst)
            (keyedScan (keyedScan 0 existing).2 incoming).1).length := by
        rw [← map_fst_collapseSlots, List.length_map]
      rw [hlen2]
      have hsub2 : autosOf (keyedScan (keyedScan 0 existing).2 incoming).1 ⊆
          setAddKeys
            ((if replace then ([] : List (String × JVal))
              else collapseSlots [] (keyedScan 0 existing).1).map Prod.fst)
            (keyedScan (keyedScan 0 existing).2 incoming).1 := by
        intro a ha
        rw [mem_setAddKeys]
        exact Or.inr (hmemKeys incoming _ a ha)
      calc keylessCount incoming
          = (autosOf (keyedScan (keyedScan 0 existing).2 incoming).1).length :=
            hAIlen.symm
        _ ≤ _ := (List.subperm_of_subset (hnodupAutos incoming _) hsub2).length_le
  · intro X Y hX hY hcX hcY
    have hkX : keyOf 0 X = (mkAuto 0, 1) := by simp [keyOf, hcX]
    have hkY : keyOf 1 Y = (mkAuto 1, 2) := by simp [keyOf, hcY]
    have hscanX : keyedScan 0 [X] = ([(mkAuto 0, X)], 1) := by
      rw [keyedScan_cons_obj hX, keyedScan_nil, hkX]
    have hscanY : keyedScan 1 [Y] = ([(mkAuto 1, Y)], 2) := by
      rw [keyedScan_cons_obj hY, keyedScan_nil, hkY]
    have hbase : collapseSlots [] [(mkAuto 0, X)] = [(mkAuto 0, X)] := by
      rw [collapseSlots_cons, collapseSlots_nil, assocSet_of_not_mem (by simp)]
      rfl
    have hnm : (mkAuto 1 : String) ∉ ([((mkAuto 0 : String), X)].map Prod.fst) := by
      simp only [List.map_cons, List.map_nil, List.mem_singleton]
      decide
    have hslots : collapseSlots [(mkAuto 0, X)] [(mkAuto 1, Y)] =
        [(mkAuto 0, X), (mkAuto 1, Y)] := by
      rw [collapseSlots_cons, collapseSlots_nil, assocSet_of_not_mem hnm]
      rfl
    have hik : setAddKeys [] [((mkAuto 1 : String), Y)] = [mkAuto 1] := by
      rw [setAddKeys_cons, setAddKeys_nil]
      simp [setAdd]
    have hek : setAddKeys [] [((mkAuto 0 : String), X)] = [mkAuto 0] := by
      rw [setAddKeys_cons, setAddKeys_nil]
      simp [setAdd]
    have hne01 : ¬ (mkAuto 1 : String) = mkAuto 0 := by decide
    have hcs : computeStats [mkAuto 1] [mkAuto 0] =
        { added := 1, updated := 0 } := by
      simp [computeStats, hne01]
    refine ⟨by rw [hscanX], by rw [hscanX, hscanY], ?_⟩
    rw [mergeCatalogItems_char]
    simp only [hscanX, hscanY, Bool.false_eq_true, if_false, hbase, hslots, hik, hek,
      hcs, List.map_cons, List.map_nil]

/-- C5 witness: the single-counter behavior at two concrete keyless items. -/
theorem auto_key_single_counter_witness :
    (keyedScan 0 [JVal.obj [("x", JVal.num 1)]]).1 =
      [(mkAuto 0, JVal.obj [("x", JVal.num 1)])] ∧
    (keyedScan (keyedScan 0 [JVal.obj [("x", JVal.num 1)]]).2
        [JVal.obj [("y", JVal.num 2)]]).1 =
      [(mkAuto 1, JVal.obj [("y", JVal.num 2)])] ∧
    mergeCatalogItems [JVal.obj [("x", JVal.num 1)]] [JVal.obj [("y", JVal.num 2)]]
        false =
      { items := [JVal.obj [("x", JVal.num 1)], JVal.obj [("y", JVal.num 2)]],
        stats := { added := 1, updated := 0 } } :=
  auto_key_single_counter.2.2.2.2.2 (JVal.obj [("x", JVal.num 1)])
    (JVal.obj [("y", JVal.num 2)]) rfl rfl rfl rfl

end YesTv
